import Mathlib

/-!
Verification of the lomik/hub pub/sub engine: a shallow embedding of the
attribute-map (pkg/kv), topic, subscription-registry (sublist), k-way merge,
multi-level index and dispatch code, with theorems about the behaviour the
specification describes.

Go strings are modelled as Lean `String`s (character lists where byte-level
scanning matters), Go slices as Lean lists, Go maps as functions into `Option`,
and fallible functions as `Except`.
-/

set_option linter.unusedVariables false

namespace HubSpec

/-! ## pkg/kv/kv.go -/

/-- KV (pkg/kv/kv.go): a key-value pair. -/
structure KV where
  key : String
  value : String
deriving DecidableEq, Repr

/-- Map (pkg/kv/kv.go): an ordered collection of key-value pairs. -/
structure Map where
  data : List KV
deriving DecidableEq, Repr

/-- The backslash character, written via its code point. -/
def backslashChar : Char := Char.ofNat 92

/-- findUnescapedEquals (pkg/kv/kv.go): position of the first equals sign not
preceded by a backslash; `none` models Go's -1. A backslash skips the
following character; a trailing backslash skips past the end of the string. -/
def findUnescapedEquals : List Char → Option Nat
  | [] => none
  | c :: rest =>
    if c = backslashChar then
      match rest with
      | [] => none
      | _ :: rest' => (findUnescapedEquals rest').map (· + 2)
    else if c = '=' then some 0
    else (findUnescapedEquals rest).map (· + 1)

/-- unescape (pkg/kv/kv.go): removes one backslash before any escaped
character; a trailing backslash is kept as-is. -/
def unescape : List Char → List Char
  | [] => []
  | c :: rest =>
    if c = backslashChar then
      match rest with
      | [] => [c]
      | c' :: rest' => c' :: unescape rest'
    else c :: unescape rest

/-- ParseError (pkg/kv/kv.go): parsing error details. -/
structure ParseError where
  msg : String
  key : String
  pos : Nat
  args : List String
deriving DecidableEq, Repr

/-- Key-value pair cut from a token at the equals position p, both halves
unescaped (the inline construction in Parse, pkg/kv/kv.go). -/
def splitTok (t : String) (p : Nat) : KV :=
  ⟨String.mk (unescape (t.data.take p)), String.mk (unescape (t.data.drop (p + 1)))⟩

/-- The scanning loop of Parse (pkg/kv/kv.go): `i` is the current position and
`args` the full token list (both recorded in errors). A token with an
unescaped equals sign is split and both halves unescaped; a bare key takes the
following token verbatim as its value, and fails when no token follows. The
one-token and two-or-more-token cases are written out separately so that each
equation corresponds to one step of Go's loop. -/
def parseGo (i : Nat) (args : List String) : List String → Except ParseError (List KV)
  | [] => .ok []
  | [t] =>
    match findUnescapedEquals t.data with
    | some p => (parseGo (i + 1) args []).map (fun l => splitTok t p :: l)
    | none => .error ⟨"missing value for key", t, i, args⟩
  | t :: v :: rest' =>
    match findUnescapedEquals t.data with
    | some p => (parseGo (i + 1) args (v :: rest')).map (fun l => splitTok t p :: l)
    | none => (parseGo (i + 2) args rest').map (fun l => ⟨t, v⟩ :: l)

/-- Key order used by sortKeys (pkg/kv/kv.go). -/
def kvle (a b : KV) : Prop := a.key ≤ b.key

instance : DecidableRel kvle := fun a b => inferInstanceAs (Decidable (a.key ≤ b.key))

instance : IsTotal KV kvle := ⟨fun a b => le_total a.key b.key⟩

instance : IsTrans KV kvle := ⟨fun a b c h₁ h₂ => le_trans h₁ h₂⟩

/-- sortKeys (pkg/kv/kv.go): sorts the pairs by key. Go uses the unstable
sort.Slice, which fixes no order between pairs with equal keys; the model uses
insertion sort, one of the permitted outcomes. -/
def Map.sortKeys (m : Map) : Map := ⟨List.insertionSort kvle m.data⟩

/-- Parse (pkg/kv/kv.go): scans the tokens and sorts the result by key. -/
def Parse (d : List String) : Except ParseError Map :=
  (parseGo 0 d d).map (fun l => Map.sortKeys ⟨l⟩)

/-- Map.Get (pkg/kv/kv.go): value of the first pair with the key, or empty. -/
def Map.Get (m : Map) (key : String) : String :=
  match m.data.find? (fun kv => kv.key == key) with
  | some kv => kv.value
  | none => ""

/-- Map.Len (pkg/kv/kv.go). -/
def Map.Len (m : Map) : Nat := m.data.length

/-- Map.Keys (pkg/kv/kv.go). -/
def Map.Keys (m : Map) : List String := m.data.map KV.key

/-- The synchronized walk of Map.Match (pkg/kv/kv.go) over the two pair
lists: key only in A fails, key only in B is skipped, equal keys compare
values (a star on either side matches anything); success requires consuming
all of A. -/
def matchData : List KV → List KV → Bool
  | [], _ => true
  | _ :: _, [] => false
  | a :: as, b :: bs =>
    if a.key < b.key then false
    else if b.key < a.key then matchData (a :: as) bs
    else if a.value ≠ "*" ∧ b.value ≠ "*" ∧ a.value ≠ b.value then false
    else matchData as bs
termination_by l₁ l₂ => l₁.length + l₂.length
decreasing_by all_goals (simp <;> omega)

/-- Map.Match (pkg/kv/kv.go). -/
def Map.Match (m other : Map) : Bool := matchData m.data other.data

/-- The sorted-merge walk of Map.Merge (pkg/kv/kv.go): on a key collision the
second map's value wins; remainders are appended. -/
def mergeData : List KV → List KV → List KV
  | [], bs => bs
  | a :: as, [] => a :: as
  | a :: as, b :: bs =>
    if a.key < b.key then a :: mergeData as (b :: bs)
    else if b.key < a.key then b :: mergeData (a :: as) bs
    else b :: mergeData as bs
termination_by l₁ l₂ => l₁.length + l₂.length
decreasing_by all_goals (simp <;> omega)

/-- Map.Merge (pkg/kv/kv.go). -/
def Map.Merge (m other : Map) : Map := ⟨mergeData m.data other.data⟩

/-! ## topic.go -/

/-- Any (topic.go): the wildcard value. -/
def Any : String := "*"

/-- Topic (topic.go): a thin wrapper around a kv.Map. -/
structure Topic where
  mp : Map
deriving DecidableEq, Repr

/-- NewTopic (topic.go): builds a topic via kv.Parse, surfacing its error. -/
def NewTopic (args : List String) : Except ParseError Topic :=
  (Parse args).map Topic.mk

/-- Topic.Match (topic.go): delegates to kv.Map.Match. -/
def Topic.Match (t other : Topic) : Bool := t.mp.Match other.mp

/-- Topic.Len (topic.go). -/
def Topic.Len (t : Topic) : Nat := t.mp.Len

/-- Topic.Get (topic.go). -/
def Topic.Get (t : Topic) (k : String) : String := t.mp.Get k

/-! ## Well-formedness of the data model -/

/-- The data-model invariant for attribute maps: pairs strictly sorted by key
(hence keys unique). -/
def MapWF (m : Map) : Prop := m.data.Pairwise (fun a b => a.key < b.key)

/-- Well-formed topic: its attribute map satisfies the data-model invariant. -/
def TopicWF (t : Topic) : Prop := MapWF t.mp

instance (m : Map) : Decidable (MapWF m) := by
  unfold MapWF; infer_instance

instance (t : Topic) : Decidable (TopicWF t) := by
  unfold TopicWF; infer_instance

/-! ## Basic facts about matchData (the containment walk) -/

theorem matchData_nil (b : List KV) : matchData [] b = true := by
  simp [matchData]

theorem matchData_cons_nil (a : KV) (as : List KV) : matchData (a :: as) [] = false := by
  simp [matchData]

theorem matchData_cons_cons (a : KV) (as : List KV) (b : KV) (bs : List KV) :
    matchData (a :: as) (b :: bs) =
      if a.key < b.key then false
      else if b.key < a.key then matchData (a :: as) bs
      else if a.value ≠ "*" ∧ b.value ≠ "*" ∧ a.value ≠ b.value then false
      else matchData as bs := by
  simp only [matchData]

/-- Every element of a strictly key-sorted cons list has key at least the head key. -/
theorem key_le_of_mem_sorted {b : KV} {bs : List KV} {x : KV}
    (hb : (b :: bs).Pairwise (fun p q => p.key < q.key)) (hx : x ∈ b :: bs) :
    b.key ≤ x.key := by
  rcases List.mem_cons.mp hx with h | h
  · exact le_of_eq (by rw [h])
  · exact le_of_lt ((List.pairwise_cons.mp hb).1 x h)

/-- Characterisation of the containment walk on well-formed (strictly
key-sorted) pair lists: it succeeds exactly when every pair of the pattern
has a same-key pair in the event whose value agrees up to a star on either
side. -/
theorem matchData_iff (a b : List KV)
    (ha : a.Pairwise (fun p q => p.key < q.key))
    (hb : b.Pairwise (fun p q => p.key < q.key)) :
    matchData a b = true ↔
      ∀ kv ∈ a, ∃ v, KV.mk kv.key v ∈ b ∧
        (kv.value = "*" ∨ v = "*" ∨ kv.value = v) := by
  revert ha hb
  induction a, b using matchData.induct with
  | case1 b =>
    intro ha hb
    simp [matchData_nil]
  | case2 a as =>
    intro ha hb
    rw [matchData_cons_nil]
    apply iff_of_false (by simp)
    intro hR
    rcases hR a (List.mem_cons_self a as) with ⟨v, hv, _⟩
    exact absurd hv (List.not_mem_nil _)
  | case3 a as b bs hlt =>
    intro ha hb
    rw [matchData_cons_cons, if_pos hlt]
    apply iff_of_false (by simp)
    intro hR
    rcases hR a (List.mem_cons_self a as) with ⟨v, hv, _⟩
    have : b.key ≤ (KV.mk a.key v).key := key_le_of_mem_sorted hb hv
    exact absurd hlt (not_lt.mpr this)
  | case4 a as b bs hnlt hgt ih =>
    intro ha hb
    rw [matchData_cons_cons, if_neg hnlt, if_pos hgt]
    rw [ih ha (List.pairwise_cons.mp hb).2]
    constructor
    · intro h kv hkv
      rcases h kv hkv with ⟨v, hv, hcond⟩
      exact ⟨v, List.mem_cons_of_mem b hv, hcond⟩
    · intro h kv hkv
      rcases h kv hkv with ⟨v, hv, hcond⟩
      refine ⟨v, ?_, hcond⟩
      rcases List.mem_cons.mp hv with heq | hmem
      · exfalso
        have hak : a.key ≤ kv.key := key_le_of_mem_sorted ha hkv
        have hkb : kv.key = b.key := by
          have := congrArg KV.key heq
          simpa using this
        rw [hkb] at hak
        exact absurd hgt (not_lt.mpr hak)
      · exact hmem
  | case5 a as b bs hnlt hngt hclash =>
    intro ha hb
    have hkeys : a.key = b.key := le_antisymm (not_lt.mp hngt) (not_lt.mp hnlt)
    rw [matchData_cons_cons, if_neg hnlt, if_neg hngt, if_pos hclash]
    apply iff_of_false (by simp)
    intro hR
    rcases hR a (List.mem_cons_self a as) with ⟨v, hv, hcond⟩
    rcases List.mem_cons.mp hv with heq | hmem
    · have hvb : v = b.value := by
        have := congrArg KV.value heq
        simpa using this
      rcases hcond with h1 | h2 | h3
      · exact hclash.1 h1
      · exact hclash.2.1 (hvb ▸ h2)
      · exact hclash.2.2 (hvb ▸ h3)
    · have hlt2 : b.key < a.key := by
        have := (List.pairwise_cons.mp hb).1 _ hmem
        simpa using this
      exact hngt hlt2
  | case6 a as b bs hnlt hngt hnclash ih =>
    intro ha hb
    have hkeys : a.key = b.key := le_antisymm (not_lt.mp hngt) (not_lt.mp hnlt)
    rw [matchData_cons_cons, if_neg hnlt, if_neg hngt, if_neg hnclash]
    rw [ih (List.pairwise_cons.mp ha).2 (List.pairwise_cons.mp hb).2]
    have hcond : a.value = "*" ∨ b.value = "*" ∨ a.value = b.value := by
      by_cases h1 : a.value = "*"
      · exact Or.inl h1
      · by_cases h2 : b.value = "*"
        · exact Or.inr (Or.inl h2)
        · by_cases h3 : a.value = b.value
          · exact Or.inr (Or.inr h3)
          · exact absurd ⟨h1, h2, h3⟩ hnclash
    constructor
    · intro h kv hkv
      rcases List.mem_cons.mp hkv with heq | hmem
      · subst heq
        refine ⟨b.value, ?_, hcond⟩
        have : KV.mk kv.key b.value = b := by
          cases b
          simp only [KV.mk.injEq]
          exact ⟨hkeys, trivial⟩
        rw [this]
        exact List.mem_cons_self b bs
      · rcases h kv hmem with ⟨v, hv, hc⟩
        exact ⟨v, List.mem_cons_of_mem b hv, hc⟩
    · intro h kv hkv
      rcases h kv (List.mem_cons_of_mem a hkv) with ⟨v, hv, hc⟩
      refine ⟨v, ?_, hc⟩
      rcases List.mem_cons.mp hv with heq | hmem
      · exfalso
        have hak : a.key < kv.key := (List.pairwise_cons.mp ha).1 kv hkv
        have hkb : kv.key = b.key := by
          have := congrArg KV.key heq
          simpa using this
        rw [hkb, ← hkeys] at hak
        exact lt_irrefl _ hak
      · exact hmem

/-! ## Parse error characterisation (claim C7) -/

/-- Success test for the parser's result. -/
def exceptIsOk {α : Type} : Except ParseError α → Bool
  | .ok _ => true
  | .error _ => false

theorem exceptIsOk_map {α β : Type} (f : α → β) (x : Except ParseError α) :
    exceptIsOk (x.map f) = exceptIsOk x := by
  cases x <;> rfl

theorem exceptMap_error {α β : Type} (f : α → β) (x : Except ParseError α) (e : ParseError) :
    x.map f = .error e ↔ x = .error e := by
  cases x <;> simp [Except.map]

theorem exceptMap_ok {α β : Type} (f : α → β) (x : Except ParseError α) (y : β) :
    x.map f = .ok y ↔ ∃ a, x = .ok a ∧ y = f a := by
  cases x <;> simp [Except.map, eq_comm]

/-- Spec-side restatement of the failure condition (claim C7): the scan fails
exactly when a token with no unescaped equals sign (a bare key) is the last
remaining token, so no value token follows it. -/
def danglingBareKey : List String → Bool
  | [] => false
  | t :: rest =>
    if (findUnescapedEquals t.data).isSome then danglingBareKey rest
    else
      match rest with
      | [] => true
      | _ :: rest' => danglingBareKey rest'

theorem parseGo_isOk :
    ∀ (i : Nat) (args l : List String), exceptIsOk (parseGo i args l) = !danglingBareKey l := by
  intro i args l
  induction i, args, l using parseGo.induct with
  | case1 i args =>
    simp [parseGo, danglingBareKey, exceptIsOk]
  | case2 i args t p hp ih =>
    simp [parseGo, danglingBareKey, hp, exceptIsOk_map, exceptIsOk, Except.map, ih]
  | case3 i args t hp =>
    simp [parseGo, danglingBareKey, hp, exceptIsOk]
  | case4 i args t v rest' p hp ih =>
    simp [parseGo, danglingBareKey, hp, exceptIsOk_map, ih]
  | case5 i args t v rest' hp ih =>
    simp [parseGo, danglingBareKey, hp, exceptIsOk_map, ih]

theorem parseGo_error :
    ∀ (i : Nat) (args l : List String) (e : ParseError), parseGo i args l = .error e →
      ∃ t, l.getLast? = some t ∧ findUnescapedEquals t.data = none ∧
        e.msg = "missing value for key" ∧ e.key = t ∧ e.args = args := by
  intro i args l
  induction i, args, l using parseGo.induct with
  | case1 i args =>
    intro e h
    simp [parseGo] at h
  | case2 i args t p hp ih =>
    intro e h
    simp [parseGo, hp, Except.map] at h
  | case3 i args t hp =>
    intro e h
    simp only [parseGo, hp, Except.error.injEq] at h
    subst h
    exact ⟨t, by simp, hp, rfl, rfl, rfl⟩
  | case4 i args t v rest' p hp ih =>
    intro e h
    simp only [parseGo, hp] at h
    rw [exceptMap_error] at h
    rcases ih e h with ⟨u, hu, hrest⟩
    exact ⟨u, by rw [List.getLast?_cons_cons]; exact hu, hrest⟩
  | case5 i args t v rest' hp ih =>
    intro e h
    simp only [parseGo, hp] at h
    rw [exceptMap_error] at h
    rcases ih e h with ⟨u, hu, hrest⟩
    refine ⟨u, ?_, hrest⟩
    cases rest' with
    | nil => simp [parseGo] at h
    | cons r rs => rw [List.getLast?_cons_cons, List.getLast?_cons_cons]; exact hu

/-! ## Sortedness of Parse and Merge results (claim C8) -/

theorem mem_mergeData : ∀ (as bs : List KV) (x : KV), x ∈ mergeData as bs → x ∈ as ∨ x ∈ bs := by
  intro as bs
  induction as, bs using mergeData.induct with
  | case1 bs => intro x hx; rw [mergeData] at hx; exact Or.inr hx
  | case2 a as => intro x hx; rw [mergeData] at hx; exact Or.inl hx
  | case3 a as b bs hlt ih =>
    intro x hx
    rw [mergeData, if_pos hlt] at hx
    rcases List.mem_cons.mp hx with h | h
    · exact Or.inl (h ▸ List.mem_cons_self a as)
    · rcases ih x h with h1 | h1
      · exact Or.inl (List.mem_cons_of_mem a h1)
      · exact Or.inr h1
  | case4 a as b bs hnlt hgt ih =>
    intro x hx
    rw [mergeData, if_neg hnlt, if_pos hgt] at hx
    rcases List.mem_cons.mp hx with h | h
    · exact Or.inr (h ▸ List.mem_cons_self b bs)
    · rcases ih x h with h1 | h1
      · exact Or.inl h1
      · exact Or.inr (List.mem_cons_of_mem b h1)
  | case5 a as b bs hnlt hngt ih =>
    intro x hx
    rw [mergeData, if_neg hnlt, if_neg hngt] at hx
    rcases List.mem_cons.mp hx with h | h
    · exact Or.inr (h ▸ List.mem_cons_self b bs)
    · rcases ih x h with h1 | h1
      · exact Or.inl (List.mem_cons_of_mem a h1)
      · exact Or.inr (List.mem_cons_of_mem b h1)

theorem sorted_mergeData :
    ∀ (as bs : List KV), as.Pairwise (fun p q => p.key < q.key) →
      bs.Pairwise (fun p q => p.key < q.key) →
      (mergeData as bs).Pairwise (fun p q => p.key < q.key) := by
  intro as bs
  induction as, bs using mergeData.induct with
  | case1 bs => intro _ hb; simpa [mergeData] using hb
  | case2 a as => intro ha _; simpa [mergeData] using ha
  | case3 a as b bs hlt ih =>
    intro ha hb
    rw [mergeData, if_pos hlt]
    rcases List.pairwise_cons.mp ha with ⟨ha1, ha2⟩
    refine List.pairwise_cons.mpr ⟨?_, ih ha2 hb⟩
    intro y hy
    rcases mem_mergeData _ _ y hy with h | h
    · exact ha1 y h
    · exact lt_of_lt_of_le hlt (key_le_of_mem_sorted hb h)
  | case4 a as b bs hnlt hgt ih =>
    intro ha hb
    rw [mergeData, if_neg hnlt, if_pos hgt]
    rcases List.pairwise_cons.mp hb with ⟨hb1, hb2⟩
    refine List.pairwise_cons.mpr ⟨?_, ih ha hb2⟩
    intro y hy
    rcases mem_mergeData _ _ y hy with h | h
    · exact lt_of_lt_of_le hgt (key_le_of_mem_sorted ha h)
    · exact hb1 y h
  | case5 a as b bs hnlt hngt ih =>
    intro ha hb
    have hkeys : a.key = b.key := le_antisymm (not_lt.mp hngt) (not_lt.mp hnlt)
    rw [mergeData, if_neg hnlt, if_neg hngt]
    rcases List.pairwise_cons.mp ha with ⟨ha1, ha2⟩
    rcases List.pairwise_cons.mp hb with ⟨hb1, hb2⟩
    refine List.pairwise_cons.mpr ⟨?_, ih ha2 hb2⟩
    intro y hy
    rcases mem_mergeData _ _ y hy with h | h
    · exact hkeys ▸ ha1 y h
    · exact hb1 y h

theorem parse_ok_sorted (d : List String) (m : Map) (h : Parse d = .ok m) :
    m.data.Pairwise kvle := by
  unfold Parse at h
  rw [exceptMap_ok] at h
  rcases h with ⟨l, _, hm⟩
  rw [hm]
  exact List.sorted_insertionSort kvle l

theorem pairwise_le_nodup_lt (l : List KV)
    (h1 : l.Pairwise kvle) (h2 : (l.map KV.key).Nodup) :
    l.Pairwise (fun p q => p.key < q.key) := by
  rw [List.Nodup, List.pairwise_map] at h2
  exact (h1.and h2).imp (fun h => lt_of_le_of_ne h.1 h.2)

deriving instance DecidableEq for Except

/-! ## Claims C4, C7, C8 -/

/-- Claim C4: for all (well-formed) topics A and B, A.Match(B) is true iff for
every key present in A that key is present in B and either value is a star or
the two values are equal, keys only in B being ignored; an empty pattern
matches any event topic, and a non-empty pattern never matches an empty event
topic (hence the relation is not symmetric). -/
theorem c4_topic_match_characterisation (a b : Topic)
    (ha : TopicWF a) (hb : TopicWF b) :
    (a.Match b = true ↔
      ∀ kv ∈ a.mp.data, ∃ v, KV.mk kv.key v ∈ b.mp.data ∧
        (kv.value = Any ∨ v = Any ∨ kv.value = v))
    ∧ (a.mp.data = [] → a.Match b = true)
    ∧ (a.mp.data ≠ [] → b.mp.data = [] → a.Match b = false) := by
  refine ⟨?_, ?_, ?_⟩
  · have h := matchData_iff a.mp.data b.mp.data ha hb
    simpa [Topic.Match, Map.Match, Any] using h
  · intro h
    show matchData a.mp.data b.mp.data = true
    rw [h, matchData_nil]
  · intro h1 h2
    show matchData a.mp.data b.mp.data = false
    rw [h2]
    cases hd : a.mp.data with
    | nil => exact absurd hd h1
    | cons x xs => rw [matchData_cons_nil]

/-- Witness for C4: the empty pattern matches the event topic type=alert. -/
theorem c4_topic_match_characterisation_witness :
    (Topic.mk ⟨[]⟩).Match (Topic.mk ⟨[⟨"type", "alert"⟩]⟩) = true :=
  (c4_topic_match_characterisation (Topic.mk ⟨[]⟩) (Topic.mk ⟨[⟨"type", "alert"⟩]⟩)
    (by decide) (by decide)).2.1 rfl

/-- Claim C7: Parse fails exactly when a bare key (token with no unescaped
equals sign) is the last remaining token of the scan; the error records that
key; and topic construction surfaces the same error synchronously. -/
theorem c7_parse_error_condition :
    (∀ d, exceptIsOk (Parse d) = !danglingBareKey d)
    ∧ (∀ d e, Parse d = .error e →
        ∃ t, d.getLast? = some t ∧ findUnescapedEquals t.data = none ∧
          e.msg = "missing value for key" ∧ e.key = t)
    ∧ (∀ d e, Parse d = .error e → NewTopic d = .error e) := by
  refine ⟨?_, ?_, ?_⟩
  · intro d
    unfold Parse
    rw [exceptIsOk_map]
    exact parseGo_isOk 0 d d
  · intro d e h
    unfold Parse at h
    rw [exceptMap_error] at h
    rcases parseGo_error 0 d d e h with ⟨t, h1, h2, h3, h4, h5⟩
    exact ⟨t, h1, h2, h3, h4⟩
  · intro d e h
    unfold NewTopic
    rw [h]
    rfl

/-- Witness for C7: constructing a topic from the lone bare key token fails
with the recorded parse error. -/
theorem c7_parse_error_condition_witness :
    NewTopic ["a"] = .error ⟨"missing value for key", "a", 0, ["a"]⟩ :=
  c7_parse_error_condition.2.2 ["a"] _ (by decide)

/-- Counterexample to C8 as stated: Parse does not deduplicate keys, so the
token list a=1, a=2 produces a map whose key sequence is a, a — the key
appears twice, violating keys-unique. -/
theorem c8_counterexample_duplicate_keys :
    (Parse ["a=1", "a=2"]).map (fun m => m.data.map KV.key) = .ok ["a", "a"]
    ∧ ¬ (["a", "a"] : List String).Nodup := by
  constructor
  · simp +decide [Parse, parseGo, splitTok, findUnescapedEquals, unescape, backslashChar,
      Map.sortKeys, List.insertionSort, List.orderedInsert, kvle, Except.map]
  · decide

/-- Claim C8 amended: every map produced by Parse is sorted by key ascending
(non-strictly); whenever the produced keys are pairwise distinct the full
data-model invariant (strictly sorted, unique keys) holds; and Merge of two
invariant-satisfying maps satisfies the invariant. Uniqueness of keys in
Parse output is NOT guaranteed when the input tokens repeat a key. -/
theorem c8_amended_sorted_maps :
    (∀ d m, Parse d = .ok m → m.data.Pairwise kvle)
    ∧ (∀ d m, Parse d = .ok m → (m.data.map KV.key).Nodup → MapWF m)
    ∧ (∀ m₁ m₂, MapWF m₁ → MapWF m₂ → MapWF (m₁.Merge m₂)) := by
  refine ⟨fun d m h => parse_ok_sorted d m h, ?_, ?_⟩
  · intro d m h hnd
    exact pairwise_le_nodup_lt m.data (parse_ok_sorted d m h) hnd
  · intro m₁ m₂ h₁ h₂
    exact sorted_mergeData m₁.data m₂.data h₁ h₂

/-- Witness for the amended C8: merging two singleton well-formed maps yields
a well-formed map. -/
theorem c8_amended_sorted_maps_witness :
    MapWF ((Map.mk [⟨"a", "1"⟩]).Merge (Map.mk [⟨"b", "2"⟩])) :=
  c8_amended_sorted_maps.2.2 (Map.mk [⟨"a", "1"⟩]) (Map.mk [⟨"b", "2"⟩])
    (by decide) (by decide)

/-! ## sub.go -/

/-- sub (sub.go): a subscription record (id, topic, once flag, atomic delivery
counter). The handler function field is external to the model; whether the
handler body runs is returned as a boolean by callStep. -/
structure Sub where
  id : Nat
  topic : Topic
  once : Bool
  counter : Nat
deriving DecidableEq, Repr

instance : Inhabited Sub := ⟨⟨0, ⟨⟨[]⟩⟩, false, 0⟩⟩

/-- sub.call (sub.go): increments the delivery counter first; when the
subscription is once-flagged and the incremented counter exceeds one the
handler is skipped. Returns the updated record and whether the handler runs. -/
def Sub.callStep (s : Sub) : Sub × Bool :=
  let c := s.counter + 1
  (⟨s.id, s.topic, s.once, c⟩, !(s.once && decide (c > 1)))

/-- sub.shouldRemove (sub.go): the subscription is eligible for removal when
once-flagged with a positive delivery counter. -/
def Sub.shouldRemove (s : Sub) : Bool := s.once && decide (s.counter > 0)

/-! ## sublist.go: the ID-sorted subscription registry -/

/-- Element access with the default (zero) subscription, mirroring Go slice
indexing; all reads are guarded by in-range checks in the code. -/
def subAt (l : List Sub) (i : Nat) : Sub := l.getD i default

/-- The loop of sort.Search from Go's standard library: binary search keeping
the invariant f true from j on and false before i. -/
def searchLoop (f : Nat → Bool) (i j : Nat) : Nat :=
  if i < j then
    (if f ((i + j) / 2) then searchLoop f i ((i + j) / 2) else searchLoop f ((i + j) / 2 + 1) j)
  else i
termination_by j - i
decreasing_by all_goals omega

/-- sort.Search (Go standard library): smallest index in the range with f
true, or n when none. -/
def sortSearch (n : Nat) (f : Nat → Bool) : Nat := searchLoop f 0 n

/-- sublist.add (sublist source, concatenated into callback_bench_test.go):
binary search for the first element with id at least the new id, insert
before it. -/
def sublistAdd (l : List Sub) (s : Sub) : List Sub :=
  let idx := sortSearch l.length (fun i => decide (s.id ≤ (subAt l i).id))
  l.take idx ++ s :: l.drop idx

/-- sublist.remove (same source): binary search; delete only on an exact id
match, otherwise no-op. -/
def sublistRemove (l : List Sub) (id : Nat) : List Sub :=
  let idx := sortSearch l.length (fun i => decide (id ≤ (subAt l i).id))
  if idx < l.length ∧ (subAt l idx).id = id then l.take idx ++ l.drop (idx + 1)
  else l

/-- sublist.find (same source): index of the subscription with the id, -1
when absent. -/
def sublistFind (l : List Sub) (id : Nat) : Int :=
  let idx := sortSearch l.length (fun i => decide (id ≤ (subAt l i).id))
  if idx < l.length ∧ (subAt l idx).id = id then (idx : Int) else -1

/-- Registries are kept strictly ascending in subscription id. -/
def SortedIds (l : List Sub) : Prop := l.Pairwise (fun a b => a.id < b.id)

instance (l : List Sub) : Decidable (SortedIds l) := by
  unfold SortedIds; infer_instance

/-! ## mergeSubLists (same source): lazy k-way merge -/

/-- One scan of the Go merge loop: the position and value of the head with
the globally smallest id, preferring the earliest list on ties (Go updates
its candidate only on a strict decrease), skipping exhausted lists. -/
def findSmallest : List (List Sub) → Option (Nat × Sub)
  | [] => none
  | [] :: rest => (findSmallest rest).map (fun p => (p.1 + 1, p.2))
  | (s :: _) :: rest =>
    match findSmallest rest with
    | none => some (0, s)
    | some (i, s') => if s'.id < s.id then some (i + 1, s') else some (0, s)

/-- Advancing the cursor of the i-th list (indices[i]++ in Go). -/
def dropHeadAt : List (List Sub) → Nat → List (List Sub)
  | [], _ => []
  | l :: rest, 0 => l.tail :: rest
  | l :: rest, i + 1 => l :: dropHeadAt rest i

/-- Total number of pending elements, the merge loop's termination measure. -/
def sumLen (lists : List (List Sub)) : Nat := (lists.map List.length).sum

theorem findSmallest_some :
    ∀ (lists : List (List Sub)) (i : Nat) (sm : Sub),
      findSmallest lists = some (i, sm) → ∃ tl, lists[i]? = some (sm :: tl) := by
  intro lists
  induction lists using findSmallest.induct with
  | case1 =>
    intro i sm h
    simp [findSmallest] at h
  | case2 rest ih =>
    intro i sm h
    simp only [findSmallest, Option.map_eq_some'] at h
    rcases h with ⟨⟨j, s'⟩, hj, heq⟩
    have h1 : j + 1 = i := by have := congrArg Prod.fst heq; simpa using this
    have h2 : s' = sm := by have := congrArg Prod.snd heq; simpa using this
    subst h1; subst h2
    rcases ih j s' hj with ⟨tl, htl⟩
    exact ⟨tl, by simpa using htl⟩
  | case3 s t rest hnone ih =>
    intro i sm h
    simp only [findSmallest, hnone, Option.some.injEq, Prod.mk.injEq] at h
    rcases h with ⟨h1, h2⟩
    subst h1; subst h2
    exact ⟨t, by simp⟩
  | case4 s t rest j s' hsome hlt ih =>
    intro i sm h
    simp only [findSmallest, hsome, if_pos hlt, Option.some.injEq, Prod.mk.injEq] at h
    rcases h with ⟨h1, h2⟩
    subst h1; subst h2
    rcases ih j s' hsome with ⟨tl, htl⟩
    exact ⟨tl, by simpa using htl⟩
  | case5 s t rest j s' hsome hnlt ih =>
    intro i sm h
    simp only [findSmallest, hsome, if_neg hnlt, Option.some.injEq, Prod.mk.injEq] at h
    rcases h with ⟨h1, h2⟩
    subst h1; subst h2
    exact ⟨t, by simp⟩

theorem dropHeadAt_sumLen :
    ∀ (lists : List (List Sub)) (i : Nat) (sm : Sub) (tl : List Sub),
      lists[i]? = some (sm :: tl) → sumLen (dropHeadAt lists i) + 1 = sumLen lists := by
  intro lists
  induction lists with
  | nil => intro i sm tl h; simp at h
  | cons l rest ih =>
    intro i sm tl h
    cases i with
    | zero =>
      simp only [List.getElem?_cons_zero, Option.some.injEq] at h
      subst h
      simp [dropHeadAt, sumLen]
      omega
    | succ n =>
      simp only [List.getElem?_cons_succ] at h
      have := ih n sm tl h
      simp [dropHeadAt, sumLen] at this ⊢
      omega

/-- mergeSubLists' merge loop (same source): repeatedly take the smallest
head, emit it unless it repeats the previously emitted id, and advance that
cursor. -/
def mergeAux (lists : List (List Sub)) (prev : Nat) : List Sub :=
  match hfs : findSmallest lists with
  | none => []
  | some (i, sm) =>
    if sm.id ≠ prev then sm :: mergeAux (dropHeadAt lists i) sm.id
    else mergeAux (dropHeadAt lists i) prev
termination_by sumLen lists
decreasing_by
  all_goals
    rcases findSmallest_some _ _ _ hfs with ⟨tl, htl⟩
    have := dropHeadAt_sumLen _ _ _ _ htl
    omega

/-- mergeSubLists (same source): the merged sequence with the duplicate
filter seeded at id 0. -/
def mergeSubLists (lists : List (List Sub)) : List Sub := mergeAux lists 0

/-- The merge loop when the consumer stops after a set number of yields (the
yield function returning false): remaining registries are not processed. -/
def mergeAuxStop (lists : List (List Sub)) (prev : Nat) (budget : Nat) : List Sub :=
  match hfs : findSmallest lists with
  | none => []
  | some (i, sm) =>
    if sm.id ≠ prev then
      match budget with
      | 0 => []
      | b + 1 => sm :: mergeAuxStop (dropHeadAt lists i) sm.id b
    else mergeAuxStop (dropHeadAt lists i) prev budget
termination_by sumLen lists
decreasing_by
  all_goals
    rcases findSmallest_some _ _ _ hfs with ⟨tl, htl⟩
    have := dropHeadAt_sumLen _ _ _ _ htl
    omega

/-! ## Correctness of the k-way merge -/

theorem mergeAux_none (lists : List (List Sub)) (prev : Nat)
    (h : findSmallest lists = none) : mergeAux lists prev = [] := by
  rw [mergeAux.eq_def, h]

theorem mergeAux_some (lists : List (List Sub)) (prev : Nat) (i : Nat) (sm : Sub)
    (h : findSmallest lists = some (i, sm)) :
    mergeAux lists prev =
      if sm.id ≠ prev then sm :: mergeAux (dropHeadAt lists i) sm.id
      else mergeAux (dropHeadAt lists i) prev := by
  rw [mergeAux.eq_def, h]

theorem mergeAuxStop_none (lists : List (List Sub)) (prev budget : Nat)
    (h : findSmallest lists = none) : mergeAuxStop lists prev budget = [] := by
  rw [mergeAuxStop.eq_def, h]

theorem mergeAuxStop_some (lists : List (List Sub)) (prev budget : Nat) (i : Nat) (sm : Sub)
    (h : findSmallest lists = some (i, sm)) :
    mergeAuxStop lists prev budget =
      if sm.id ≠ prev then
        match budget with
        | 0 => []
        | b + 1 => sm :: mergeAuxStop (dropHeadAt lists i) sm.id b
      else mergeAuxStop (dropHeadAt lists i) prev budget := by
  rw [mergeAuxStop.eq_def, h]

theorem sortedIds_tail (l : List Sub) (h : SortedIds l) : SortedIds l.tail := by
  cases l with
  | nil => exact List.Pairwise.nil
  | cons x xs => exact (List.pairwise_cons.mp h).2

theorem dropHeadAt_sorted (lists : List (List Sub)) (i : Nat)
    (hs : ∀ l ∈ lists, SortedIds l) : ∀ l ∈ dropHeadAt lists i, SortedIds l := by
  induction lists generalizing i with
  | nil => intro l hl; simp [dropHeadAt] at hl
  | cons hd rest ih =>
    intro l hl
    cases i with
    | zero =>
      rcases List.mem_cons.mp hl with rfl | hl
      · exact sortedIds_tail hd (hs hd (List.mem_cons_self _ _))
      · exact hs l (List.mem_cons_of_mem _ hl)
    | succ n =>
      rcases List.mem_cons.mp hl with rfl | hl
      · exact hs l (List.mem_cons_self _ _)
      · exact ih n (fun x hx => hs x (List.mem_cons_of_mem _ hx)) l hl

theorem mem_join_dropHeadAt (lists : List (List Sub)) (i : Nat) (x : Sub)
    (hx : x ∈ (dropHeadAt lists i).flatten) : x ∈ lists.flatten := by
  induction lists generalizing i with
  | nil => simp [dropHeadAt] at hx
  | cons hd rest ih =>
    cases i with
    | zero =>
      simp only [dropHeadAt, List.flatten_cons, List.mem_append] at hx ⊢
      rcases hx with hx | hx
      · exact Or.inl (List.mem_of_mem_tail hx)
      · exact Or.inr hx
    | succ n =>
      simp only [dropHeadAt, List.flatten_cons, List.mem_append] at hx ⊢
      rcases hx with hx | hx
      · exact Or.inl hx
      · exact Or.inr (ih n hx)

theorem join_split_dropHeadAt (lists : List (List Sub)) (i : Nat) (sm : Sub) (tl : List Sub)
    (htl : lists[i]? = some (sm :: tl)) (x : Sub) (hx : x ∈ lists.flatten) :
    x = sm ∨ x ∈ (dropHeadAt lists i).flatten := by
  induction lists generalizing i with
  | nil => simp at htl
  | cons hd rest ih =>
    cases i with
    | zero =>
      simp only [List.getElem?_cons_zero, Option.some.injEq] at htl
      subst htl
      simp only [List.flatten_cons, List.mem_append] at hx
      simp only [dropHeadAt, List.flatten_cons, List.mem_append, List.tail_cons]
      rcases hx with hx | hx
      · rcases List.mem_cons.mp hx with rfl | hx
        · exact Or.inl rfl
        · exact Or.inr (Or.inl hx)
      · exact Or.inr (Or.inr hx)
    | succ n =>
      simp only [List.getElem?_cons_succ] at htl
      simp only [List.flatten_cons, List.mem_append] at hx
      simp only [dropHeadAt, List.flatten_cons, List.mem_append]
      rcases hx with hx | hx
      · exact Or.inr (Or.inl hx)
      · rcases ih n htl hx with h | h
        · exact Or.inl h
        · exact Or.inr (Or.inr h)

theorem findSmallest_none_join (lists : List (List Sub))
    (h : findSmallest lists = none) : lists.flatten = [] := by
  induction lists using findSmallest.induct with
  | case1 => rfl
  | case2 rest ih =>
    simp only [findSmallest, Option.map_eq_none'] at h
    simp [ih h]
  | case3 s t rest hnone ih =>
    simp [findSmallest, hnone] at h
  | case4 s t rest j s' hsome hlt ih =>
    simp [findSmallest, hsome, if_pos hlt] at h
  | case5 s t rest j s' hsome hnlt ih =>
    simp [findSmallest, hsome, if_neg hnlt] at h

theorem findSmallest_min (lists : List (List Sub))
    (hs : ∀ l ∈ lists, SortedIds l) :
    ∀ (i : Nat) (sm : Sub), findSmallest lists = some (i, sm) →
      ∀ x ∈ lists.flatten, sm.id ≤ x.id := by
  induction lists using findSmallest.induct with
  | case1 =>
    intro i sm h
    simp [findSmallest] at h
  | case2 rest ih =>
    intro i sm h x hx
    simp only [findSmallest, Option.map_eq_some'] at h
    rcases h with ⟨⟨j, s'⟩, hj, heq⟩
    have h2 : s' = sm := by have := congrArg Prod.snd heq; simpa using this
    subst h2
    simp only [List.flatten_cons, List.nil_append] at hx
    exact ih (fun l hl => hs l (List.mem_cons_of_mem _ hl)) j s' hj x hx
  | case3 s t rest hnone ih =>
    intro i sm h x hx
    simp only [findSmallest, hnone, Option.some.injEq, Prod.mk.injEq] at h
    rcases h with ⟨_, h2⟩
    subst h2
    have hjr := findSmallest_none_join rest hnone
    simp only [List.flatten_cons, List.mem_append, hjr] at hx
    rcases hx with hx | hx
    · rcases List.mem_cons.mp hx with rfl | hx
      · exact le_refl _
      · exact le_of_lt ((List.pairwise_cons.mp (hs _ (List.mem_cons_self _ _))).1 x hx)
    · simp at hx
  | case4 s t rest j s' hsome hlt ih =>
    intro i sm h x hx
    simp only [findSmallest, hsome, if_pos hlt, Option.some.injEq, Prod.mk.injEq] at h
    rcases h with ⟨_, h2⟩
    subst h2
    simp only [List.flatten_cons, List.mem_append] at hx
    rcases hx with hx | hx
    · rcases List.mem_cons.mp hx with rfl | hx
      · exact le_of_lt hlt
      · exact le_of_lt (lt_trans hlt ((List.pairwise_cons.mp (hs _ (List.mem_cons_self _ _))).1 x hx))
    · exact ih (fun l hl => hs l (List.mem_cons_of_mem _ hl)) j s' hsome x hx
  | case5 s t rest j s' hsome hnlt ih =>
    intro i sm h x hx
    simp only [findSmallest, hsome, if_neg hnlt, Option.some.injEq, Prod.mk.injEq] at h
    rcases h with ⟨_, h2⟩
    subst h2
    simp only [List.flatten_cons, List.mem_append] at hx
    rcases hx with hx | hx
    · rcases List.mem_cons.mp hx with rfl | hx
      · exact le_refl _
      · exact le_of_lt ((List.pairwise_cons.mp (hs _ (List.mem_cons_self _ _))).1 x hx)
    · exact le_trans (not_lt.mp hnlt) (ih (fun l hl => hs l (List.mem_cons_of_mem _ hl)) j s' hsome x hx)

theorem findSmallest_mem (lists : List (List Sub)) (i : Nat) (sm : Sub)
    (h : findSmallest lists = some (i, sm)) : sm ∈ lists.flatten := by
  rcases findSmallest_some lists i sm h with ⟨tl, htl⟩
  have hmem : (sm :: tl) ∈ lists := by
    have := List.getElem?_eq_some.mp htl
    rcases this with ⟨hlt, hget⟩
    exact hget ▸ List.getElem_mem hlt
  exact List.mem_flatten.mpr ⟨sm :: tl, hmem, List.mem_cons_self _ _⟩

/-- Main characterisation of the merge loop: over strictly id-sorted
registries whose elements all have id at least prev, the produced sequence is
strictly id-ascending, all emitted ids exceed prev, and an id is emitted
exactly when some input element carries it and it exceeds prev. -/
theorem mergeAux_spec :
    ∀ (lists : List (List Sub)) (prev : Nat),
      (∀ l ∈ lists, SortedIds l) → (∀ x ∈ lists.flatten, prev ≤ x.id) →
      SortedIds (mergeAux lists prev)
      ∧ (∀ y ∈ mergeAux lists prev, prev < y.id)
      ∧ (∀ n, (∃ y ∈ mergeAux lists prev, y.id = n) ↔
          ∃ x ∈ lists.flatten, x.id = n ∧ prev < n) := by
  intro lists prev
  induction lists, prev using mergeAux.induct with
  | case1 lists prev hfs =>
    intro hs hlb
    rw [mergeAux_none _ _ hfs]
    have hj := findSmallest_none_join lists hfs
    refine ⟨List.Pairwise.nil, by simp, ?_⟩
    intro n
    simp [hj]
  | case2 lists prev i sm hfs hne ih =>
    intro hs hlb
    rw [mergeAux_some _ _ _ _ hfs, if_pos hne]
    have hsmem : sm ∈ lists.flatten := findSmallest_mem lists i sm hfs
    have hprevlt : prev < sm.id := lt_of_le_of_ne (hlb sm hsmem) (Ne.symm hne)
    have hmin := findSmallest_min lists hs i sm hfs
    have hs' := dropHeadAt_sorted lists i hs
    have hlb' : ∀ x ∈ (dropHeadAt lists i).flatten, sm.id ≤ x.id := by
      intro x hx
      exact hmin x (mem_join_dropHeadAt lists i x hx)
    rcases ih hs' hlb' with ⟨ihsort, ihgt, ihiff⟩
    rcases findSmallest_some lists i sm hfs with ⟨tl, htl⟩
    refine ⟨?_, ?_, ?_⟩
    · exact List.pairwise_cons.mpr ⟨fun y hy => ihgt y hy, ihsort⟩
    · intro y hy
      rcases List.mem_cons.mp hy with rfl | hy
      · exact hprevlt
      · exact lt_trans hprevlt (ihgt y hy)
    · intro n
      constructor
      · rintro ⟨y, hy, rfl⟩
        rcases List.mem_cons.mp hy with rfl | hy
        · exact ⟨y, hsmem, rfl, hprevlt⟩
        · rcases (ihiff y.id).mp ⟨y, hy, rfl⟩ with ⟨x, hx, hxid, hxgt⟩
          exact ⟨x, mem_join_dropHeadAt lists i x hx, hxid, lt_trans hprevlt hxgt⟩
      · rintro ⟨x, hx, rfl, hgt⟩
        rcases join_split_dropHeadAt lists i sm tl htl x hx with rfl | hx'
        · exact ⟨x, List.mem_cons_self _ _, rfl⟩
        · by_cases hxsm : x.id = sm.id
          · exact ⟨sm, List.mem_cons_self _ _, hxsm.symm⟩
          · have hlt2 : sm.id < x.id := lt_of_le_of_ne (hmin x hx) (Ne.symm hxsm)
            rcases (ihiff x.id).mpr ⟨x, hx', rfl, hlt2⟩ with ⟨y, hy, hyid⟩
            exact ⟨y, List.mem_cons_of_mem _ hy, hyid⟩
  | case3 lists prev i sm hfs hne ih =>
    intro hs hlb
    rw [mergeAux_some _ _ _ _ hfs, if_neg hne]
    have hsm : sm.id = prev := not_ne_iff.mp hne
    have hs' := dropHeadAt_sorted lists i hs
    have hmin := findSmallest_min lists hs i sm hfs
    have hlb' : ∀ x ∈ (dropHeadAt lists i).flatten, prev ≤ x.id := by
      intro x hx
      exact hlb x (mem_join_dropHeadAt lists i x hx)
    rcases ih hs' hlb' with ⟨ihsort, ihgt, ihiff⟩
    rcases findSmallest_some lists i sm hfs with ⟨tl, htl⟩
    refine ⟨ihsort, ihgt, ?_⟩
    intro n
    rw [ihiff n]
    constructor
    · rintro ⟨x, hx, rfl, hgt⟩
      exact ⟨x, mem_join_dropHeadAt lists i x hx, rfl, hgt⟩
    · rintro ⟨x, hx, rfl, hgt⟩
      rcases join_split_dropHeadAt lists i sm tl htl x hx with rfl | hx'
      · exact absurd hgt (by rw [hsm]; exact lt_irrefl _)
      · exact ⟨x, hx', rfl, hgt⟩

/-- The consumer-stopping merge produces exactly the first elements of the
full merge: early termination loses nothing but the tail. -/
theorem mergeAuxStop_take :
    ∀ (lists : List (List Sub)) (prev : Nat) (budget : Nat),
      mergeAuxStop lists prev budget = (mergeAux lists prev).take budget := by
  intro lists prev
  induction lists, prev using mergeAux.induct with
  | case1 lists prev hfs =>
    intro budget
    rw [mergeAuxStop_none _ _ _ hfs, mergeAux_none _ _ hfs]
    simp
  | case2 lists prev i sm hfs hne ih =>
    intro budget
    rw [mergeAuxStop_some _ _ _ _ _ hfs, mergeAux_some _ _ _ _ hfs, if_pos hne, if_pos hne]
    cases budget with
    | zero => simp
    | succ b => simp [ih b]
  | case3 lists prev i sm hfs hne ih =>
    intro budget
    rw [mergeAuxStop_some _ _ _ _ _ hfs, mergeAux_some _ _ _ _ hfs, if_neg hne, if_neg hne]
    exact ih budget

/-! ## Claims C5 and C6 -/

/-- Claim C5: the handler wrapper increments the delivery counter first; when
the subscription is once-flagged and the incremented counter exceeds one, the
underlying handler is not invoked; and the subscription is eligible for
removal exactly when it is once-flagged with counter at least one. -/
theorem c5_once_semantics (s : Sub) :
    ((s.callStep).1.counter = s.counter + 1)
    ∧ (s.once = true → s.counter + 1 > 1 → (s.callStep).2 = false)
    ∧ (s.shouldRemove = true ↔ s.once = true ∧ 1 ≤ s.counter) := by
  refine ⟨rfl, ?_, ?_⟩
  · intro h1 h2
    simp [Sub.callStep, h1, h2]
  · simp [Sub.shouldRemove, Nat.lt_iff_add_one_le]

/-- Witness for C5: a once subscription already delivered once skips its
handler on the next call. -/
theorem c5_once_semantics_witness :
    ((Sub.mk 1 ⟨⟨[]⟩⟩ true 1).callStep).2 = false :=
  (c5_once_semantics ⟨1, ⟨⟨[]⟩⟩, true, 1⟩).2.1 rfl (by decide)

/-- Claim C6: over id-ascending duplicate-free registries holding engine ids
(at least 1), the merge yields ids strictly ascending (hence each distinct id
exactly once), yields an id exactly when some registry holds it, stops early
as a pure prefix when the consumer requests termination, and the registries
with ids 1,3,5 and 2,3,4 merge to exactly 1,2,3,4,5. -/
theorem c6_kway_merge (lists : List (List Sub))
    (hs : ∀ l ∈ lists, SortedIds l) (hpos : ∀ x ∈ lists.flatten, 1 ≤ x.id) :
    SortedIds (mergeSubLists lists)
    ∧ (∀ n, (∃ y ∈ mergeSubLists lists, y.id = n) ↔ ∃ x ∈ lists.flatten, x.id = n)
    ∧ (∀ budget, mergeAuxStop lists 0 budget = (mergeSubLists lists).take budget)
    ∧ (mergeSubLists [[⟨1, ⟨⟨[]⟩⟩, false, 0⟩, ⟨3, ⟨⟨[]⟩⟩, false, 0⟩, ⟨5, ⟨⟨[]⟩⟩, false, 0⟩],
        [⟨2, ⟨⟨[]⟩⟩, false, 0⟩, ⟨3, ⟨⟨[]⟩⟩, false, 0⟩, ⟨4, ⟨⟨[]⟩⟩, false, 0⟩]]).map Sub.id
        = [1, 2, 3, 4, 5] := by
  rcases mergeAux_spec lists 0 hs (fun x hx => Nat.zero_le _) with ⟨h1, h2, h3⟩
  refine ⟨h1, ?_, ?_, ?_⟩
  · intro n
    constructor
    · intro h
      rcases (h3 n).mp h with ⟨x, hx, hxid, _⟩
      exact ⟨x, hx, hxid⟩
    · rintro ⟨x, hx, rfl⟩
      exact (h3 x.id).mpr ⟨x, hx, rfl, hpos x hx⟩
  · intro budget
    exact mergeAuxStop_take lists 0 budget
  · simp +decide [mergeSubLists, mergeAux, findSmallest, dropHeadAt]

/-- Witness for C6: the two spec-example registries satisfy the hypotheses
and their merge is strictly ascending. -/
theorem c6_kway_merge_witness :
    SortedIds (mergeSubLists [[⟨1, ⟨⟨[]⟩⟩, false, 0⟩, ⟨3, ⟨⟨[]⟩⟩, false, 0⟩, ⟨5, ⟨⟨[]⟩⟩, false, 0⟩],
      [⟨2, ⟨⟨[]⟩⟩, false, 0⟩, ⟨3, ⟨⟨[]⟩⟩, false, 0⟩, ⟨4, ⟨⟨[]⟩⟩, false, 0⟩]]) :=
  (c6_kway_merge _ (by decide) (by decide)).1

/-! ## Binary search characterisation and registry operations on sorted registries -/

theorem searchLoop_spec (f : Nat → Bool) (n k : Nat)
    (hlow : ∀ m, m < k → f m = false) (hhigh : ∀ m, k ≤ m → m < n → f m = true) :
    ∀ i j, i ≤ k → k ≤ j → j ≤ n → searchLoop f i j = k := by
  intro i j
  induction i, j using searchLoop.induct f with
  | case1 i j hij hf ih =>
    intro hik hkj hjn
    rw [searchLoop.eq_def, if_pos hij, if_pos hf]
    have hkm : k ≤ (i + j) / 2 := by
      by_contra hc
      rw [hlow _ (not_le.mp hc)] at hf
      exact Bool.false_ne_true hf
    exact ih hik hkm (by omega)
  | case2 i j hij hf ih =>
    intro hik hkj hjn
    rw [searchLoop.eq_def, if_pos hij, if_neg hf]
    have hmk : (i + j) / 2 < k := by
      by_contra hc
      exact hf (hhigh _ (not_lt.mp hc) (by omega))
    exact ih (by omega) hkj hjn
  | case3 i j hij =>
    intro hik hkj hjn
    rw [searchLoop.eq_def, if_neg hij]
    omega

theorem sortSearch_spec (f : Nat → Bool) (n k : Nat) (hk : k ≤ n)
    (hlow : ∀ m, m < k → f m = false) (hhigh : ∀ m, k ≤ m → m < n → f m = true) :
    sortSearch n f = k :=
  searchLoop_spec f n k hlow hhigh 0 n (Nat.zero_le k) hk (le_refl n)

/-- The first position whose element id is at least the target: the index
sort.Search computes over a sorted registry. -/
def lowerBound (l : List Sub) (id : Nat) : Nat :=
  match l with
  | [] => 0
  | x :: xs => if x.id < id then lowerBound xs id + 1 else 0

theorem lowerBound_le (l : List Sub) (id : Nat) : lowerBound l id ≤ l.length := by
  induction l with
  | nil => simp [lowerBound]
  | cons x xs ih =>
    rw [lowerBound]
    by_cases hx : x.id < id
    · rw [if_pos hx]; simpa using ih
    · rw [if_neg hx]; simp

theorem subAt_cons_zero (x : Sub) (xs : List Sub) : subAt (x :: xs) 0 = x := rfl

theorem subAt_cons_succ (x : Sub) (xs : List Sub) (m : Nat) :
    subAt (x :: xs) (m + 1) = subAt xs m := rfl

theorem subAt_mem (l : List Sub) (m : Nat) (h : m < l.length) : subAt l m ∈ l := by
  unfold subAt
  rw [List.getD_eq_getElem l default h]
  exact List.getElem_mem h

theorem lowerBound_lt (l : List Sub) (id : Nat) :
    ∀ m, m < lowerBound l id → (subAt l m).id < id := by
  induction l with
  | nil => intro m hm; simp [lowerBound] at hm
  | cons x xs ih =>
    intro m hm
    rw [lowerBound] at hm
    by_cases hx : x.id < id
    · rw [if_pos hx] at hm
      cases m with
      | zero => exact hx
      | succ m => rw [subAt_cons_succ]; exact ih m (by omega)
    · rw [if_neg hx] at hm
      omega

theorem lowerBound_ge (l : List Sub) (id : Nat) (hsorted : SortedIds l) :
    ∀ m, lowerBound l id ≤ m → m < l.length → id ≤ (subAt l m).id := by
  induction l with
  | nil => intro m _ hm; simp at hm
  | cons x xs ih =>
    intro m hm hlen
    rw [lowerBound] at hm
    rcases List.pairwise_cons.mp hsorted with ⟨hhead, htail⟩
    by_cases hx : x.id < id
    · rw [if_pos hx] at hm
      cases m with
      | zero => omega
      | succ m => rw [subAt_cons_succ]; exact ih htail m (by omega) (by simpa using hlen)
    · cases m with
      | zero => exact not_lt.mp hx
      | succ m =>
        rw [subAt_cons_succ]
        have hmem : subAt xs m ∈ xs := subAt_mem xs m (by simpa using hlen)
        exact le_trans (not_lt.mp hx) (le_of_lt (hhead _ hmem))

theorem sortSearch_lowerBound (l : List Sub) (id : Nat) (hsorted : SortedIds l) :
    sortSearch l.length (fun i => decide (id ≤ (subAt l i).id)) = lowerBound l id := by
  apply sortSearch_spec _ _ _ (lowerBound_le l id)
  · intro m hm
    simpa using not_le.mpr (lowerBound_lt l id m hm)
  · intro m h1 h2
    simpa using lowerBound_ge l id hsorted m h1 h2

theorem sublistAdd_append (l : List Sub) (s : Sub) (hmax : ∀ x ∈ l, x.id < s.id) :
    sublistAdd l s = l ++ [s] := by
  unfold sublistAdd
  have hsearch : sortSearch l.length (fun i => decide (s.id ≤ (subAt l i).id)) = l.length := by
    apply sortSearch_spec _ _ _ (le_refl _)
    · intro m hm
      simpa using not_le.mpr (hmax _ (subAt_mem l m hm))
    · intro m h1 h2
      omega
  rw [hsearch]
  simp

theorem subAt_append_left (l r : List Sub) (m : Nat) (h : m < l.length) :
    subAt (l ++ r) m = subAt l m := by
  unfold subAt
  rw [List.getD_eq_getElem _ default (by simp; omega), List.getD_eq_getElem _ default h]
  exact List.getElem_append_left h

theorem subAt_append_self (l : List Sub) (s : Sub) :
    subAt (l ++ [s]) l.length = s := by
  unfold subAt
  rw [List.getD_eq_getElem _ default (by simp)]
  simp

theorem sublistRemove_append (l : List Sub) (s : Sub) (hmax : ∀ x ∈ l, x.id < s.id) :
    sublistRemove (l ++ [s]) s.id = l := by
  unfold sublistRemove
  have hsearch : sortSearch (l ++ [s]).length (fun i => decide (s.id ≤ (subAt (l ++ [s]) i).id))
      = l.length := by
    apply sortSearch_spec _ _ _ (by simp)
    · intro m hm
      rw [subAt_append_left l [s] m hm]
      simpa using not_le.mpr (hmax _ (subAt_mem l m hm))
    · intro m h1 h2
      simp at h2
      have hm : m = l.length := by omega
      subst hm
      rw [subAt_append_self]
      simp
  rw [hsearch]
  rw [if_pos ⟨by simp, by rw [subAt_append_self]⟩]
  simp

theorem sublistFind_append (l : List Sub) (s : Sub) (hmax : ∀ x ∈ l, x.id < s.id) :
    sublistFind (l ++ [s]) s.id = (l.length : Int) := by
  unfold sublistFind
  have hsearch : sortSearch (l ++ [s]).length (fun i => decide (s.id ≤ (subAt (l ++ [s]) i).id))
      = l.length := by
    apply sortSearch_spec _ _ _ (by simp)
    · intro m hm
      rw [subAt_append_left l [s] m hm]
      simpa using not_le.mpr (hmax _ (subAt_mem l m hm))
    · intro m h1 h2
      simp at h2
      have hm : m = l.length := by omega
      subst hm
      rw [subAt_append_self]
      simp
  rw [hsearch]
  rw [if_pos ⟨by simp, by rw [subAt_append_self]⟩]

theorem sublistRemove_core (l : List Sub) (id : Nat) (hsorted : SortedIds l) :
    (if lowerBound l id < l.length ∧ (subAt l (lowerBound l id)).id = id then
      l.take (lowerBound l id) ++ l.drop (lowerBound l id + 1)
    else l) = l.filter (fun s => decide (s.id ≠ id)) := by
  induction l with
  | nil => simp
  | cons x xs ih =>
    rcases List.pairwise_cons.mp hsorted with ⟨hhead, htail⟩
    by_cases hx : x.id < id
    · have hlb : lowerBound (x :: xs) id = lowerBound xs id + 1 := by rw [lowerBound, if_pos hx]
      have hxne : decide (x.id ≠ id) = true := by simp; omega
      rw [hlb]
      have hsub : subAt (x :: xs) (lowerBound xs id + 1) = subAt xs (lowerBound xs id) :=
        subAt_cons_succ x xs _
      by_cases hcond : lowerBound xs id < xs.length ∧ (subAt xs (lowerBound xs id)).id = id
      · rw [if_pos ⟨by simpa using hcond.1, by rw [hsub]; exact hcond.2⟩]
        rw [List.filter_cons, hxne]
        rw [← ih htail, if_pos hcond]
        simp
      · rw [if_neg (by rw [hsub]; intro hc; exact hcond ⟨by simpa using hc.1, hc.2⟩)]
        rw [List.filter_cons, hxne]
        rw [← ih htail, if_neg hcond]
        simp
    · have hlb : lowerBound (x :: xs) id = 0 := by rw [lowerBound, if_neg hx]
      rw [hlb]
      have hfx : ∀ y ∈ xs, decide (y.id ≠ id) = true := by
        intro y hy
        have : x.id < y.id := hhead y hy
        simp
        omega
      by_cases hxid : x.id = id
      · rw [if_pos ⟨by simp, hxid⟩]
        simp only [List.take_zero, List.drop_one, List.nil_append, List.tail_cons]
        rw [List.filter_cons]
        have : decide (x.id ≠ id) = false := by simp [hxid]
        rw [this]
        exact (List.filter_eq_self.mpr hfx).symm
      · rw [if_neg (by intro hc; exact hxid hc.2)]
        rw [List.filter_cons]
        have hxk : decide (x.id ≠ id) = true := by simp [hxid]
        rw [hxk]
        rw [List.filter_eq_self.mpr hfx]
        simp

theorem sublistRemove_sorted (l : List Sub) (id : Nat) (hsorted : SortedIds l) :
    sublistRemove l id = l.filter (fun s => decide (s.id ≠ id)) := by
  unfold sublistRemove
  rw [sortSearch_lowerBound l id hsorted]
  exact sublistRemove_core l id hsorted

theorem sortedIds_le_subAt (l : List Sub) (hsorted : SortedIds l) (i j : Nat)
    (hij : i ≤ j) (hj : j < l.length) : (subAt l i).id ≤ (subAt l j).id := by
  rcases Nat.eq_or_lt_of_le hij with rfl | hlt
  · exact le_refl _
  · have := List.pairwise_iff_getElem.mp hsorted i j (by omega) hj hlt
    unfold subAt
    rw [List.getD_eq_getElem _ default (by omega), List.getD_eq_getElem _ default hj]
    exact le_of_lt this

theorem sublistFind_not_mem (l : List Sub) (id : Nat) (hsorted : SortedIds l)
    (hnot : ∀ x ∈ l, x.id ≠ id) : sublistFind l id = -1 := by
  unfold sublistFind
  rw [sortSearch_lowerBound l id hsorted]
  rw [if_neg (by rintro ⟨h1, h2⟩; exact hnot _ (subAt_mem l _ h1) h2)]

theorem sublistFind_mem (l : List Sub) (id : Nat) (hsorted : SortedIds l)
    (x : Sub) (hx : x ∈ l) (hxid : x.id = id) :
    0 ≤ sublistFind l id ∧ (sublistFind l id).toNat < l.length ∧
      (subAt l (sublistFind l id).toNat).id = id := by
  rcases List.getElem_of_mem hx with ⟨m, hm, hget⟩
  have hsub : subAt l m = x := by
    unfold subAt
    rw [List.getD_eq_getElem _ default hm]
    exact hget
  have hmlb : lowerBound l id ≤ m := by
    by_contra hc
    have := lowerBound_lt l id m (not_le.mp hc)
    rw [hsub, hxid] at this
    exact lt_irrefl _ this
  have hlb_lt : lowerBound l id < l.length := lt_of_le_of_lt hmlb hm
  have hgele : id ≤ (subAt l (lowerBound l id)).id :=
    lowerBound_ge l id hsorted _ (le_refl _) hlb_lt
  have hlele : (subAt l (lowerBound l id)).id ≤ id := by
    have := sortedIds_le_subAt l hsorted (lowerBound l id) m hmlb hm
    rw [hsub, hxid] at this
    exact this
  have heq : (subAt l (lowerBound l id)).id = id := le_antisymm hlele hgele
  unfold sublistFind
  rw [sortSearch_lowerBound l id hsorted]
  rw [if_pos ⟨hlb_lt, heq⟩]
  refine ⟨by omega, by simpa using hlb_lt, by simpa using heq⟩

/-! ## hub.go: the hub state, indexes and operations -/

/-- Hub (hub.go): sequence counter, all-subscriptions registry and the three
index structures. Go maps are modelled as functions into Option; the mutex
guards a critical section and has no sequential content. The handler
conversion hooks are external to the model. -/
structure Hub where
  seq : Nat
  all : List Sub
  indexKeyValue : String → Option (String → Option (List Sub))
  indexKey : String → Option (List Sub)
  indexEmpty : List Sub

/-- New (hub.go): empty registry and empty indexes. -/
def Hub.new : Hub := ⟨0, [], fun _ => none, fun _ => none, []⟩

/-- Point update of a modelled Go map. -/
def mapUpdate {α : Type} (f : String → Option α) (k : String) (v : Option α) :
    String → Option α :=
  fun q => if q = k then v else f q

/-- One iteration of the Each loop in Hub.add (hub.go): lazily create the
nested indexKeyValue maps and the indexKey bucket, then insert into both. -/
def addKVStep (s : Sub)
    (st : (String → Option (String → Option (List Sub))) × (String → Option (List Sub)))
    (p : KV) :
    (String → Option (String → Option (List Sub))) × (String → Option (List Sub)) :=
  (mapUpdate st.1 p.key
      (some (mapUpdate ((st.1 p.key).getD (fun _ => none)) p.value
        (some (sublistAdd ((((st.1 p.key).getD (fun _ => none)) p.value).getD []) s)))),
   mapUpdate st.2 p.key (some (sublistAdd ((st.2 p.key).getD []) s)))

/-- Hub.add (hub.go): insert into the all-registry, into both indexes for
every pair of the topic, and into indexEmpty when the topic is empty. -/
def Hub.addSub (h : Hub) (s : Sub) : Hub :=
  let st := s.topic.mp.data.foldl (addKVStep s) (h.indexKeyValue, h.indexKey)
  ⟨h.seq, sublistAdd h.all s, st.1, st.2,
    if s.topic.Len = 0 then sublistAdd h.indexEmpty s else h.indexEmpty⟩

/-- Hub.SubscribeEvent (hub.go): allocate the next id from the atomic
counter, build the record (the Once option sets the flag), and index it. -/
def Hub.subscribeEvent (h : Hub) (t : Topic) (once : Bool) : Hub × Nat :=
  let id := h.seq + 1
  let s : Sub := ⟨id, t, once, 0⟩
  ((Hub.mk id h.all h.indexKeyValue h.indexKey h.indexEmpty).addSub s, id)

/-- One iteration of the Each loop in Hub.Unsubscribe (hub.go): remove from
the exact-value bucket, deleting the value entry when it becomes empty (the
outer key map is never deleted), and from the wildcard index, deleting the
key entry when it becomes empty. -/
def removeKVStep (id : Nat)
    (st : (String → Option (String → Option (List Sub))) × (String → Option (List Sub)))
    (p : KV) :
    (String → Option (String → Option (List Sub))) × (String → Option (List Sub)) :=
  let ikv :=
    match st.1 p.key with
    | none => st.1
    | some inner =>
      match inner p.value with
      | none => st.1
      | some sl =>
        let sl2 := sublistRemove sl id
        if sl2.length = 0 then mapUpdate st.1 p.key (some (mapUpdate inner p.value none))
        else mapUpdate st.1 p.key (some (mapUpdate inner p.value (some sl2)))
  let ik :=
    match st.2 p.key with
    | none => st.2
    | some sl =>
      let sl2 := sublistRemove sl id
      if sl2.length = 0 then mapUpdate st.2 p.key none
      else mapUpdate st.2 p.key (some sl2)
  (ikv, ik)

/-- Hub.Unsubscribe (hub.go): silently return when find misses; otherwise
remove the found subscription from the all-registry, every index bucket its
topic touches, and indexEmpty for an empty topic. -/
def Hub.unsubscribe (h : Hub) (id : Nat) : Hub :=
  let idx := sublistFind h.all id
  if idx < 0 then h
  else
    let s := subAt h.all idx.toNat
    let st := s.topic.mp.data.foldl (removeKVStep id) (h.indexKeyValue, h.indexKey)
    ⟨h.seq, sublistRemove h.all id, st.1, st.2,
      if s.topic.Len = 0 then sublistRemove h.indexEmpty id else h.indexEmpty⟩

/-- Hub.Clear (hub.go). -/
def Hub.clear (h : Hub) : Hub := ⟨h.seq, [], fun _ => none, fun _ => none, []⟩

/-- Hub.Len (hub.go). -/
def Hub.len (h : Hub) : Nat := h.all.length

/-- Inner bucket lookup: the registry stored at indexKeyValue[k][v]. -/
def kvBucket (h : Hub) (k v : String) : Option (List Sub) :=
  match h.indexKeyValue k with
  | none => none
  | some inner => inner v

/-- The candidate registries Hub.match (hub.go) appends for one event pair:
for a wildcard event value only the indexKey bucket; otherwise the
exact-value bucket and then the wildcard-pattern bucket, each when present. -/
def pickLists (h : Hub) (p : KV) : List (List Sub) :=
  if p.value = Any then
    match h.indexKey p.key with
    | some sl => [sl]
    | none => []
  else
    match h.indexKeyValue p.key with
    | none => []
    | some inner =>
      (match inner p.value with | some sl => [sl] | none => []) ++
      (match inner Any with | some sl => [sl] | none => [])

/-- The candidate list Hub.match (hub.go) gathers: per-pair buckets in event
pair order, then indexEmpty whenever it is non-empty. -/
def Hub.candidates (h : Hub) (t : Topic) : List (List Sub) :=
  let cand := t.mp.data.foldl (fun acc p => acc ++ pickLists h p) []
  if h.indexEmpty.length > 0 then cand ++ [h.indexEmpty] else cand

/-- Hub.match (hub.go): merge the candidate registries and keep, in merge
order, exactly those whose pattern passes the authoritative Match check; the
callback receives exactly this sequence and the returned count is its
length. -/
def Hub.matchSubs (h : Hub) (t : Topic) : List Sub :=
  (mergeSubLists (h.candidates t)).filter (fun s => s.topic.Match t)

/-! ## The hub index invariant -/

/-- Inner bucket lookup on a raw indexKeyValue map. -/
def ikvAt (ikv : String → Option (String → Option (List Sub))) (k v : String) :
    Option (List Sub) :=
  match ikv k with
  | none => none
  | some inner => inner v

theorem kvBucket_eq (h : Hub) (k v : String) : kvBucket h k v = ikvAt h.indexKeyValue k v := rfl

/-- Consistency of the hub state: the all-registry is strictly id-sorted with
positive ids bounded by the sequence counter and well-formed topics; every
index bucket is sorted, non-empty, and holds exactly the registered
subscriptions whose topic mentions the bucket's pair or key; indexEmpty holds
exactly the empty-topic subscriptions. -/
structure Inv (h : Hub) : Prop where
  all_sorted : SortedIds h.all
  all_pos : ∀ s ∈ h.all, 1 ≤ s.id
  all_seq : ∀ s ∈ h.all, s.id ≤ h.seq
  all_wf : ∀ s ∈ h.all, TopicWF s.topic
  kv_sound : ∀ k v sl, kvBucket h k v = some sl →
    SortedIds sl ∧ sl ≠ [] ∧ ∀ s ∈ sl, s ∈ h.all ∧ KV.mk k v ∈ s.topic.mp.data
  kv_complete : ∀ s ∈ h.all, ∀ p ∈ s.topic.mp.data,
    ∃ sl, kvBucket h p.key p.value = some sl ∧ s ∈ sl
  key_sound : ∀ k sl, h.indexKey k = some sl →
    SortedIds sl ∧ sl ≠ [] ∧ ∀ s ∈ sl, s ∈ h.all ∧ k ∈ s.topic.mp.data.map KV.key
  key_complete : ∀ s ∈ h.all, ∀ p ∈ s.topic.mp.data,
    ∃ sl, h.indexKey p.key = some sl ∧ s ∈ sl
  empty_sorted : SortedIds h.indexEmpty
  empty_sound : ∀ s ∈ h.indexEmpty, s ∈ h.all ∧ s.topic.mp.data = []
  empty_complete : ∀ s ∈ h.all, s.topic.mp.data = [] → s ∈ h.indexEmpty

theorem sortedIds_id_inj (l : List Sub) (h : SortedIds l) :
    ∀ a ∈ l, ∀ b ∈ l, a.id = b.id → a = b := by
  induction l with
  | nil => intro a ha; simp at ha
  | cons x xs ih =>
    rcases List.pairwise_cons.mp h with ⟨hhead, htail⟩
    intro a ha b hb hab
    rcases List.mem_cons.mp ha with ha2 | ha2
    · rcases List.mem_cons.mp hb with hb2 | hb2
      · rw [ha2, hb2]
      · exact absurd hab (by rw [ha2]; have := hhead b hb2; omega)
    · rcases List.mem_cons.mp hb with hb2 | hb2
      · exact absurd hab (by rw [hb2]; have := hhead a ha2; omega)
      · exact ih htail a ha2 b hb2 hab

/-! ## Pointwise behaviour of the index folds -/

theorem getD_inner_eq (ikv : String → Option (String → Option (List Sub))) (k v : String) :
    ((ikv k).getD (fun _ => none)) v = ikvAt ikv k v := by
  unfold ikvAt
  cases ikv k <;> rfl

theorem addFold_untouched (s : Sub) (ps : List KV)
    (st : (String → Option (String → Option (List Sub))) × (String → Option (List Sub)))
    (k : String) (hk : k ∉ ps.map KV.key) :
    (ps.foldl (addKVStep s) st).1 k = st.1 k ∧ (ps.foldl (addKVStep s) st).2 k = st.2 k := by
  induction ps generalizing st with
  | nil => exact ⟨rfl, rfl⟩
  | cons p rest ih =>
    have hkp : k ≠ p.key := by
      intro hc
      exact hk (by simp [hc])
    have hrest : k ∉ rest.map KV.key := fun hc => hk (by simp at hc ⊢; exact Or.inr hc)
    rw [List.foldl_cons]
    rcases ih (addKVStep s st p) hrest with ⟨h1, h2⟩
    refine ⟨?_, ?_⟩
    · rw [h1]
      show mapUpdate st.1 p.key _ k = st.1 k
      unfold mapUpdate
      rw [if_neg hkp]
    · rw [h2]
      show mapUpdate st.2 p.key _ k = st.2 k
      unfold mapUpdate
      rw [if_neg hkp]

theorem addStep_ikvAt (s : Sub)
    (st : (String → Option (String → Option (List Sub))) × (String → Option (List Sub)))
    (p : KV) (k v : String) :
    ikvAt (addKVStep s st p).1 k v =
      if k = p.key then
        (if v = p.value then some (sublistAdd ((ikvAt st.1 k v).getD []) s)
         else ikvAt st.1 k v)
      else ikvAt st.1 k v := by
  unfold addKVStep ikvAt mapUpdate
  dsimp only
  rw [getD_inner_eq st.1 p.key p.value]
  by_cases hk : k = p.key
  · rw [if_pos hk, if_pos hk]
    dsimp only
    by_cases hv : v = p.value
    · rw [if_pos hv, if_pos hv, hk, hv]
      unfold ikvAt
      rfl
    · rw [if_neg hv, if_neg hv, hk]
      rw [getD_inner_eq st.1 p.key v]
      unfold ikvAt
      rfl
  · rw [if_neg hk, if_neg hk]

theorem addStep_ik (s : Sub)
    (st : (String → Option (String → Option (List Sub))) × (String → Option (List Sub)))
    (p : KV) (k : String) :
    (addKVStep s st p).2 k =
      if k = p.key then some (sublistAdd ((st.2 k).getD []) s) else st.2 k := by
  show mapUpdate st.2 p.key _ k = _
  unfold mapUpdate
  by_cases hk : k = p.key
  · simp [hk]
  · rw [if_neg hk, if_neg hk]

theorem addFold_ikvAt (s : Sub) (ps : List KV)
    (hnd : ps.Pairwise (fun a b => a.key ≠ b.key)) :
    ∀ (st : (String → Option (String → Option (List Sub))) × (String → Option (List Sub)))
      (k v : String),
      ikvAt (ps.foldl (addKVStep s) st).1 k v =
        if KV.mk k v ∈ ps then some (sublistAdd ((ikvAt st.1 k v).getD []) s)
        else ikvAt st.1 k v := by
  induction ps with
  | nil => intro st k v; simp
  | cons p rest ih =>
    intro st k v
    rcases List.pairwise_cons.mp hnd with ⟨hhead, htail⟩
    rw [List.foldl_cons, ih htail (addKVStep s st p) k v]
    by_cases hmem : KV.mk k v ∈ rest
    · have hkp : k ≠ p.key := by
        intro hc
        exact hhead _ hmem (by rw [hc])
      rw [if_pos hmem, if_pos (List.mem_cons_of_mem p hmem)]
      rw [addStep_ikvAt, if_neg hkp]
    · rw [if_neg hmem]
      rw [addStep_ikvAt]
      by_cases hk : k = p.key
      · by_cases hv : v = p.value
        · have hpe : KV.mk k v = p := by
            cases p
            simp at hk hv ⊢
            exact ⟨hk, hv⟩
          rw [if_pos hk, if_pos hv, if_pos (by rw [hpe]; exact List.mem_cons_self p rest)]
        · have hne : KV.mk k v ∉ p :: rest := by
            intro hc
            rcases List.mem_cons.mp hc with hc | hc
            · exact hv (by have := congrArg KV.value hc; simpa using this)
            · exact hmem hc
          rw [if_pos hk, if_neg hv, if_neg hne]
      · have hne : KV.mk k v ∉ p :: rest := by
          intro hc
          rcases List.mem_cons.mp hc with hc | hc
          · exact hk (by have := congrArg KV.key hc; simpa using this)
          · exact hmem hc
        rw [if_neg hk, if_neg hne]

theorem addFold_ik (s : Sub) (ps : List KV)
    (hnd : ps.Pairwise (fun a b => a.key ≠ b.key)) :
    ∀ (st : (String → Option (String → Option (List Sub))) × (String → Option (List Sub)))
      (k : String),
      (ps.foldl (addKVStep s) st).2 k =
        if k ∈ ps.map KV.key then some (sublistAdd ((st.2 k).getD []) s)
        else st.2 k := by
  induction ps with
  | nil => intro st k; simp
  | cons p rest ih =>
    intro st k
    rcases List.pairwise_cons.mp hnd with ⟨hhead, htail⟩
    rw [List.foldl_cons, ih htail (addKVStep s st p) k]
    by_cases hmem : k ∈ rest.map KV.key
    · have hkp : k ≠ p.key := by
        intro hc
        rcases List.mem_map.mp hmem with ⟨q, hq, hqk⟩
        exact hhead q hq (by rw [hc] at hqk; exact hqk.symm)
      rw [if_pos hmem, if_pos (by simp; exact Or.inr (by simpa using hmem))]
      rw [addStep_ik, if_neg hkp]
    · rw [if_neg hmem, addStep_ik]
      by_cases hk : k = p.key
      · rw [if_pos hk, if_pos (by simp [hk])]
      · rw [if_neg hk, if_neg (by simp; exact ⟨fun hc => hk hc, by simpa using hmem⟩)]

theorem removeStep_ikvAt (id : Nat)
    (st : (String → Option (String → Option (List Sub))) × (String → Option (List Sub)))
    (p : KV) (k v : String) :
    ikvAt (removeKVStep id st p).1 k v =
      if k = p.key ∧ v = p.value then
        (match ikvAt st.1 k v with
         | none => none
         | some sl =>
           if (sublistRemove sl id).length = 0 then none else some (sublistRemove sl id))
      else ikvAt st.1 k v := by
  unfold removeKVStep
  dsimp only
  by_cases hk : k = p.key
  · by_cases hv : v = p.value
    · rw [if_pos ⟨hk, hv⟩]
      subst hk; subst hv
      cases hout : st.1 p.key with
      | none => simp [ikvAt, hout]
      | some inner =>
        cases hin : inner p.value with
        | none => simp [ikvAt, hout, hin]
        | some sl =>
          by_cases hlen : (sublistRemove sl id).length = 0
          · simp [ikvAt, mapUpdate, hout, hin, hlen]
          · simp [ikvAt, mapUpdate, hout, hin, hlen]
    · rw [if_neg (by intro hc; exact hv hc.2)]
      subst hk
      cases hout : st.1 p.key with
      | none => simp [ikvAt, hout]
      | some inner =>
        cases hin : inner p.value with
        | none => simp [ikvAt, hout, hin]
        | some sl =>
          by_cases hlen : (sublistRemove sl id).length = 0
          · simp [ikvAt, mapUpdate, hout, hin, hlen, hv]
          · simp [ikvAt, mapUpdate, hout, hin, hlen, hv]
  · rw [if_neg (by intro hc; exact hk hc.1)]
    cases hout : st.1 p.key with
    | none => simp [ikvAt, hout]
    | some inner =>
      cases hin : inner p.value with
      | none => simp [ikvAt, hout, hin]
      | some sl =>
        by_cases hlen : (sublistRemove sl id).length = 0
        · simp [ikvAt, mapUpdate, hout, hin, hlen, hk]
        · simp [ikvAt, mapUpdate, hout, hin, hlen, hk]

theorem removeStep_ik (id : Nat)
    (st : (String → Option (String → Option (List Sub))) × (String → Option (List Sub)))
    (p : KV) (k : String) :
    (removeKVStep id st p).2 k =
      if k = p.key then
        (match st.2 k with
         | none => none
         | some sl =>
           if (sublistRemove sl id).length = 0 then none else some (sublistRemove sl id))
      else st.2 k := by
  unfold removeKVStep
  dsimp only
  by_cases hk : k = p.key
  · rw [if_pos hk]
    subst hk
    cases hout : st.2 p.key with
    | none => simp [hout]
    | some sl =>
      by_cases hlen : (sublistRemove sl id).length = 0
      · simp [mapUpdate, hout, hlen]
      · simp [mapUpdate, hout, hlen]
  · rw [if_neg hk]
    cases hout : st.2 p.key with
    | none => rfl
    | some sl =>
      by_cases hlen : (sublistRemove sl id).length = 0
      · simp [mapUpdate, hout, hlen, hk]
      · simp [mapUpdate, hout, hlen, hk]

theorem removeFold_ikvAt (id : Nat) (ps : List KV)
    (hnd : ps.Pairwise (fun a b => a.key ≠ b.key)) :
    ∀ (st : (String → Option (String → Option (List Sub))) × (String → Option (List Sub)))
      (k v : String),
      ikvAt (ps.foldl (removeKVStep id) st).1 k v =
        if KV.mk k v ∈ ps then
          (match ikvAt st.1 k v with
           | none => none
           | some sl =>
             if (sublistRemove sl id).length = 0 then none else some (sublistRemove sl id))
        else ikvAt st.1 k v := by
  induction ps with
  | nil => intro st k v; simp
  | cons p rest ih =>
    intro st k v
    rcases List.pairwise_cons.mp hnd with ⟨hhead, htail⟩
    rw [List.foldl_cons, ih htail (removeKVStep id st p) k v]
    by_cases hmem : KV.mk k v ∈ rest
    · have hkp : k ≠ p.key := by
        intro hc
        exact hhead _ hmem (by rw [hc])
      rw [if_pos hmem, if_pos (List.mem_cons_of_mem p hmem)]
      rw [removeStep_ikvAt, if_neg (by intro hc; exact hkp hc.1)]
    · rw [if_neg hmem, removeStep_ikvAt]
      by_cases hk : k = p.key
      · by_cases hv : v = p.value
        · have hpe : KV.mk k v = p := by
            cases p
            simp at hk hv ⊢
            exact ⟨hk, hv⟩
          rw [if_pos ⟨hk, hv⟩, if_pos (by rw [hpe]; exact List.mem_cons_self p rest)]
        · have hne : KV.mk k v ∉ p :: rest := by
            intro hc
            rcases List.mem_cons.mp hc with hc | hc
            · exact hv (by have := congrArg KV.value hc; simpa using this)
            · exact hmem hc
          rw [if_neg (by intro hc; exact hv hc.2), if_neg hne]
      · have hne : KV.mk k v ∉ p :: rest := by
          intro hc
          rcases List.mem_cons.mp hc with hc | hc
          · exact hk (by have := congrArg KV.key hc; simpa using this)
          · exact hmem hc
        rw [if_neg (by intro hc; exact hk hc.1), if_neg hne]

theorem removeFold_ik (id : Nat) (ps : List KV)
    (hnd : ps.Pairwise (fun a b => a.key ≠ b.key)) :
    ∀ (st : (String → Option (String → Option (List Sub))) × (String → Option (List Sub)))
      (k : String),
      (ps.foldl (removeKVStep id) st).2 k =
        if k ∈ ps.map KV.key then
          (match st.2 k with
           | none => none
           | some sl =>
             if (sublistRemove sl id).length = 0 then none else some (sublistRemove sl id))
        else st.2 k := by
  induction ps with
  | nil => intro st k; simp
  | cons p rest ih =>
    intro st k
    rcases List.pairwise_cons.mp hnd with ⟨hhead, htail⟩
    rw [List.foldl_cons, ih htail (removeKVStep id st p) k]
    by_cases hmem : k ∈ rest.map KV.key
    · have hkp : k ≠ p.key := by
        intro hc
        rcases List.mem_map.mp hmem with ⟨q, hq, hqk⟩
        exact hhead q hq (by rw [hc] at hqk; exact hqk.symm)
      rw [if_pos hmem, if_pos (by simp; exact Or.inr (by simpa using hmem))]
      rw [removeStep_ik, if_neg hkp]
    · rw [if_neg hmem, removeStep_ik]
      by_cases hk : k = p.key
      · rw [if_pos hk, if_pos (by simp [hk])]
      · rw [if_neg hk, if_neg (by simp; exact ⟨fun hc => hk hc, by simpa using hmem⟩)]

theorem removeFold_untouched (id : Nat) (ps : List KV)
    (st : (String → Option (String → Option (List Sub))) × (String → Option (List Sub)))
    (k : String) (hk : k ∉ ps.map KV.key) :
    (ps.foldl (removeKVStep id) st).1 k = st.1 k ∧
      (ps.foldl (removeKVStep id) st).2 k = st.2 k := by
  induction ps generalizing st with
  | nil => exact ⟨rfl, rfl⟩
  | cons p rest ih =>
    have hkp : k ≠ p.key := by
      intro hc
      exact hk (by simp [hc])
    have hrest : k ∉ rest.map KV.key := fun hc => hk (by simp at hc ⊢; exact Or.inr hc)
    rw [List.foldl_cons]
    rcases ih (removeKVStep id st p) hrest with ⟨h1, h2⟩
    refine ⟨?_, ?_⟩
    · rw [h1]
      unfold removeKVStep
      dsimp only
      cases hout : st.1 p.key with
      | none => rfl
      | some inner =>
        cases hin : inner p.value with
        | none => simp [hin]
        | some sl =>
          by_cases hlen : (sublistRemove sl id).length = 0
          · simp [mapUpdate, hin, hlen, hkp]
          · simp [mapUpdate, hin, hlen, hkp]
    · rw [h2]
      unfold removeKVStep
      dsimp only
      cases hout : st.2 p.key with
      | none => rfl
      | some sl =>
        by_cases hlen : (sublistRemove sl id).length = 0
        · simp [mapUpdate, hlen, hkp]
        · simp [mapUpdate, hlen, hkp]

theorem addStep_outer (s : Sub)
    (st : (String → Option (String → Option (List Sub))) × (String → Option (List Sub)))
    (p : KV) :
    (addKVStep s st p).1 p.key =
      some (mapUpdate ((st.1 p.key).getD (fun _ => none)) p.value
        (some (sublistAdd ((ikvAt st.1 p.key p.value).getD []) s))) := by
  unfold addKVStep mapUpdate
  dsimp only
  rw [if_pos rfl, getD_inner_eq st.1 p.key p.value]

theorem addFold_outer (s : Sub) (ps : List KV)
    (hnd : ps.Pairwise (fun a b => a.key ≠ b.key)) :
    ∀ (st : (String → Option (String → Option (List Sub))) × (String → Option (List Sub)))
      (p : KV), p ∈ ps →
      (ps.foldl (addKVStep s) st).1 p.key =
        some (mapUpdate ((st.1 p.key).getD (fun _ => none)) p.value
          (some (sublistAdd ((ikvAt st.1 p.key p.value).getD []) s))) := by
  induction ps with
  | nil => intro st p hp; simp at hp
  | cons q rest ih =>
    intro st p hp
    rcases List.pairwise_cons.mp hnd with ⟨hhead, htail⟩
    rw [List.foldl_cons]
    rcases List.mem_cons.mp hp with hp2 | hp2
    · subst hp2
      have hnk : p.key ∉ rest.map KV.key := by
        intro hc
        rcases List.mem_map.mp hc with ⟨r, hr, hrk⟩
        exact hhead r hr hrk.symm
      rw [(addFold_untouched s rest (addKVStep s st p) p.key hnk).1]
      exact addStep_outer s st p
    · have hqk : q.key ≠ p.key := hhead p hp2
      have h1 : (addKVStep s st q).1 p.key = st.1 p.key := by
        unfold addKVStep mapUpdate
        dsimp only
        rw [if_neg (fun hc => hqk hc.symm)]
      have h2 : ikvAt (addKVStep s st q).1 p.key p.value = ikvAt st.1 p.key p.value := by
        unfold ikvAt
        rw [h1]
      rw [ih htail (addKVStep s st q) p hp2, h1, h2]

theorem removeStep_outer (id : Nat)
    (st : (String → Option (String → Option (List Sub))) × (String → Option (List Sub)))
    (p : KV) :
    (removeKVStep id st p).1 p.key =
      match st.1 p.key with
      | none => none
      | some inner =>
        match inner p.value with
        | none => some inner
        | some sl =>
          if (sublistRemove sl id).length = 0 then some (mapUpdate inner p.value none)
          else some (mapUpdate inner p.value (some (sublistRemove sl id))) := by
  unfold removeKVStep
  dsimp only
  cases hout : st.1 p.key with
  | none => simp [hout]
  | some inner =>
    cases hin : inner p.value with
    | none => simp [hin, hout]
    | some sl =>
      by_cases hlen : (sublistRemove sl id).length = 0
      · have hnil : sublistRemove sl id = [] := List.length_eq_zero.mp hlen
        simp [mapUpdate, hin, hout, hnil]
      · have hnil : sublistRemove sl id ≠ [] := by
          intro hc
          exact hlen (by rw [hc]; rfl)
        simp [mapUpdate, hin, hout, hnil]

theorem removeFold_outer (id : Nat) (ps : List KV)
    (hnd : ps.Pairwise (fun a b => a.key ≠ b.key)) :
    ∀ (st : (String → Option (String → Option (List Sub))) × (String → Option (List Sub)))
      (p : KV), p ∈ ps →
      (ps.foldl (removeKVStep id) st).1 p.key =
        match st.1 p.key with
        | none => none
        | some inner =>
          match inner p.value with
          | none => some inner
          | some sl =>
            if (sublistRemove sl id).length = 0 then some (mapUpdate inner p.value none)
            else some (mapUpdate inner p.value (some (sublistRemove sl id))) := by
  induction ps with
  | nil => intro st p hp; simp at hp
  | cons q rest ih =>
    intro st p hp
    rcases List.pairwise_cons.mp hnd with ⟨hhead, htail⟩
    rw [List.foldl_cons]
    rcases List.mem_cons.mp hp with hp2 | hp2
    · subst hp2
      have hnk : p.key ∉ rest.map KV.key := by
        intro hc
        rcases List.mem_map.mp hc with ⟨r, hr, hrk⟩
        exact hhead r hr hrk.symm
      rw [(removeFold_untouched id rest (removeKVStep id st p) p.key hnk).1]
      exact removeStep_outer id st p
    · have hqk : q.key ≠ p.key := hhead p hp2
      have h1 : (removeKVStep id st q).1 p.key = st.1 p.key := by
        unfold removeKVStep
        dsimp only
        cases hout : st.1 q.key with
        | none => rfl
        | some inner =>
          cases hin : inner q.value with
          | none => simp [hin]
          | some sl =>
            by_cases hlen : (sublistRemove sl id).length = 0
            · simp only [hin]
              rw [if_pos hlen]
              unfold mapUpdate
              rw [if_neg (fun hc => hqk hc.symm)]
            · simp only [hin]
              rw [if_neg hlen]
              unfold mapUpdate
              rw [if_neg (fun hc => hqk hc.symm)]
      rw [ih htail (removeKVStep id st q) p hp2, h1]

/-! ## Basic hub facts and claim C9 -/

theorem inv_new : Inv Hub.new := by
  refine ⟨List.Pairwise.nil, ?_, ?_, ?_, ?_, ?_, ?_, ?_, List.Pairwise.nil, ?_, ?_⟩
  · intro s hs; simp [Hub.new] at hs
  · intro s hs; simp [Hub.new] at hs
  · intro s hs; simp [Hub.new] at hs
  · intro k v sl hsl; simp [kvBucket, Hub.new] at hsl
  · intro s hs; simp [Hub.new] at hs
  · intro k sl hsl; simp [Hub.new] at hsl
  · intro s hs; simp [Hub.new] at hs
  · intro s hs; simp [Hub.new] at hs
  · intro s hs; simp [Hub.new] at hs

theorem unsubscribe_not_found (h : Hub) (id : Nat)
    (hfind : sublistFind h.all id = -1) : h.unsubscribe id = h := by
  unfold Hub.unsubscribe
  rw [hfind]
  norm_num

theorem unsubscribe_found (h : Hub) (id : Nat)
    (hfound : ¬ sublistFind h.all id < 0) :
    h.unsubscribe id =
      ⟨h.seq, sublistRemove h.all id,
        ((subAt h.all (sublistFind h.all id).toNat).topic.mp.data.foldl
          (removeKVStep id) (h.indexKeyValue, h.indexKey)).1,
        ((subAt h.all (sublistFind h.all id).toNat).topic.mp.data.foldl
          (removeKVStep id) (h.indexKeyValue, h.indexKey)).2,
        if (subAt h.all (sublistFind h.all id).toNat).topic.Len = 0
        then sublistRemove h.indexEmpty id else h.indexEmpty⟩ := by
  unfold Hub.unsubscribe
  rw [if_neg hfound]

/-- Claim C9: Unsubscribe of an unknown id returns silently leaving the hub
state completely unchanged, and unsubscribing the same id twice equals
unsubscribing it once. -/
theorem c9_unsubscribe_unknown_silent_idempotent (h : Hub) (id : Nat) (hinv : Inv h) :
    (id ∉ h.all.map Sub.id → h.unsubscribe id = h)
    ∧ (h.unsubscribe id).unsubscribe id = h.unsubscribe id := by
  have hpart1 : ∀ (g : Hub), SortedIds g.all → id ∉ g.all.map Sub.id → g.unsubscribe id = g := by
    intro g hsorted hnot
    apply unsubscribe_not_found
    apply sublistFind_not_mem g.all id hsorted
    intro x hx hxid
    exact hnot (List.mem_map.mpr ⟨x, hx, hxid⟩)
  refine ⟨hpart1 h hinv.all_sorted, ?_⟩
  by_cases hmem : id ∈ h.all.map Sub.id
  · have hfound : ¬ sublistFind h.all id < 0 := by
      rcases List.mem_map.mp hmem with ⟨x, hx, hxid⟩
      have := sublistFind_mem h.all id hinv.all_sorted x hx hxid
      omega
    have hall : (h.unsubscribe id).all = sublistRemove h.all id := by
      rw [unsubscribe_found h id hfound]
    have hsorted2 : SortedIds (h.unsubscribe id).all := by
      rw [hall, sublistRemove_sorted h.all id hinv.all_sorted]
      exact hinv.all_sorted.filter _
    have hnot2 : id ∉ (h.unsubscribe id).all.map Sub.id := by
      rw [hall, sublistRemove_sorted h.all id hinv.all_sorted]
      intro hc
      rcases List.mem_map.mp hc with ⟨x, hx, hxid⟩
      rcases List.mem_filter.mp hx with ⟨_, hxne⟩
      simp at hxne
      exact hxne hxid
    exact hpart1 _ hsorted2 hnot2
  · have h1 := hpart1 h hinv.all_sorted hmem
    rw [h1]
    exact h1

/-- Witness for C9: unsubscribing an id from the fresh hub is a no-op. -/
theorem c9_witness : Hub.new.unsubscribe 5 = Hub.new :=
  (c9_unsubscribe_unknown_silent_idempotent Hub.new 5 inv_new).1 (by simp [Hub.new])

/-! ## Claim C2: subscribe then unsubscribe -/

/-- SubscribeEvent immediately followed by Unsubscribe of the returned id. -/
def subThenUnsub (h : Hub) (t : Topic) (once : Bool) : Hub :=
  (h.subscribeEvent t once).1.unsubscribe (h.subscribeEvent t once).2

/-- Counterexample to C2 as stated: on a fresh hub, subscribing with topic
a=1 and immediately unsubscribing leaves indexKeyValue with an entry for key
a (an empty inner map), although no entry existed before the subscribe: the
outer key map is changed, not absent, because Unsubscribe never deletes it. -/
theorem c2_counterexample_leaked_outer_map :
    Hub.new.indexKeyValue "a" = none
    ∧ ((subThenUnsub Hub.new (Topic.mk ⟨[⟨"a", "1"⟩]⟩) false).indexKeyValue "a").isSome = true := by
  constructor
  · rfl
  · simp +decide [subThenUnsub, Hub.new, Hub.subscribeEvent, Hub.addSub, addKVStep,
      Hub.unsubscribe, removeKVStep, sublistAdd, sublistRemove, sublistFind, sortSearch,
      searchLoop, subAt, mapUpdate, ikvAt, Topic.Len, Map.Len]

theorem sublistAdd_nil (s : Sub) : sublistAdd [] s = [s] := by
  have := sublistAdd_append [] s (by intro x hx; simp at hx)
  simpa using this

theorem removeStep_outer_isSome (id : Nat)
    (st : (String → Option (String → Option (List Sub))) × (String → Option (List Sub)))
    (p : KV) (k : String) :
    ((removeKVStep id st p).1 k).isSome = (st.1 k).isSome := by
  unfold removeKVStep
  dsimp only
  cases hout : st.1 p.key with
  | none => rfl
  | some inner =>
    cases hin : inner p.value with
    | none => simp [hin]
    | some sl =>
      by_cases hlen : (sublistRemove sl id).length = 0
      · simp only [hin]
        rw [if_pos hlen]
        unfold mapUpdate
        by_cases hk : k = p.key
        · rw [if_pos hk, hk, hout]; rfl
        · rw [if_neg hk]
      · simp only [hin]
        rw [if_neg hlen]
        unfold mapUpdate
        by_cases hk : k = p.key
        · rw [if_pos hk, hk, hout]; rfl
        · rw [if_neg hk]

theorem removeFold_outer_isSome (id : Nat) (ps : List KV)
    (st : (String → Option (String → Option (List Sub))) × (String → Option (List Sub)))
    (k : String) :
    ((ps.foldl (removeKVStep id) st).1 k).isSome = (st.1 k).isSome := by
  induction ps generalizing st with
  | nil => rfl
  | cons p rest ih =>
    rw [List.foldl_cons, ih (removeKVStep id st p)]
    exact removeStep_outer_isSome id st p k

/-- Claim C2 amended: subscribe-then-unsubscribe restores the all-registry,
the whole indexKey map, indexEmpty, and every inner indexKeyValue[k][v]
registry to their pre-subscribe state; the only possible residue is the outer
indexKeyValue[k] entry itself, which, when the key was previously absent, is
left behind as an empty inner map instead of being deleted. -/
theorem c2_amended_buckets_restored (h : Hub) (t : Topic) (once : Bool)
    (hinv : Inv h) (ht : TopicWF t) :
    (subThenUnsub h t once).all = h.all
    ∧ (subThenUnsub h t once).indexKey = h.indexKey
    ∧ (subThenUnsub h t once).indexEmpty = h.indexEmpty
    ∧ (∀ k v, kvBucket (subThenUnsub h t once) k v = kvBucket h k v)
    ∧ (∀ k, (subThenUnsub h t once).indexKeyValue k = h.indexKeyValue k
        ∨ (h.indexKeyValue k = none
           ∧ (subThenUnsub h t once).indexKeyValue k = some (fun _ => none))) := by
  have hnd : t.mp.data.Pairwise (fun a b => a.key ≠ b.key) :=
    ht.imp (fun hlt => ne_of_lt hlt)
  have hfresh : ∀ x ∈ h.all, x.id < (h.seq + 1) := by
    intro x hx
    have := hinv.all_seq x hx
    omega
  have h1all : (h.subscribeEvent t once).1.all = h.all ++ [⟨h.seq + 1, t, once, 0⟩] :=
    sublistAdd_append h.all ⟨h.seq + 1, t, once, 0⟩ hfresh
  have hfind : sublistFind (h.subscribeEvent t once).1.all (h.seq + 1) = (h.all.length : Int) := by
    rw [h1all]
    exact sublistFind_append h.all ⟨h.seq + 1, t, once, 0⟩ hfresh
  have hfound : ¬ sublistFind (h.subscribeEvent t once).1.all (h.seq + 1) < 0 := by
    rw [hfind]
    omega
  have hsubAt : subAt (h.subscribeEvent t once).1.all
      (sublistFind (h.subscribeEvent t once).1.all (h.seq + 1)).toNat
      = ⟨h.seq + 1, t, once, 0⟩ := by
    rw [hfind, h1all]
    simpa using subAt_append_self h.all ⟨h.seq + 1, t, once, 0⟩
  have hcomp := unsubscribe_found (h.subscribeEvent t once).1 (h.seq + 1) hfound
  rw [hsubAt] at hcomp
  have hmid : ∀ k, (h.subscribeEvent t once).1.indexKey k =
      if k ∈ t.mp.data.map KV.key
      then some (sublistAdd ((h.indexKey k).getD []) ⟨h.seq + 1, t, once, 0⟩)
      else h.indexKey k := by
    intro k
    exact addFold_ik ⟨h.seq + 1, t, once, 0⟩ t.mp.data hnd (h.indexKeyValue, h.indexKey) k
  have hmidkv : ∀ k v, ikvAt (h.subscribeEvent t once).1.indexKeyValue k v =
      if KV.mk k v ∈ t.mp.data
      then some (sublistAdd ((ikvAt h.indexKeyValue k v).getD []) ⟨h.seq + 1, t, once, 0⟩)
      else ikvAt h.indexKeyValue k v := by
    intro k v
    exact addFold_ikvAt ⟨h.seq + 1, t, once, 0⟩ t.mp.data hnd (h.indexKeyValue, h.indexKey) k v
  have hpost_ikvAt : ∀ k v,
      ikvAt (t.mp.data.foldl (removeKVStep (h.seq + 1))
        ((h.subscribeEvent t once).1.indexKeyValue, (h.subscribeEvent t once).1.indexKey)).1 k v
      = ikvAt h.indexKeyValue k v := by
    intro k v
    rw [removeFold_ikvAt (h.seq + 1) t.mp.data hnd _ k v]
    by_cases hkv : KV.mk k v ∈ t.mp.data
    · rw [if_pos hkv]
      show (match ikvAt (h.subscribeEvent t once).1.indexKeyValue k v with
            | none => none
            | some sl => if (sublistRemove sl (h.seq + 1)).length = 0 then none
                         else some (sublistRemove sl (h.seq + 1))) = ikvAt h.indexKeyValue k v
      rw [hmidkv k v, if_pos hkv]
      cases hikv : ikvAt h.indexKeyValue k v with
      | none =>
        have hrem : sublistRemove ([] ++ [(⟨h.seq + 1, t, once, 0⟩ : Sub)]) (h.seq + 1) = [] :=
          sublistRemove_append [] _ (by intro x hx; simp at hx)
        simp only [List.nil_append] at hrem
        simp only [hikv, Option.getD_none, sublistAdd_nil]
        simp [hrem]
      | some sl0 =>
        rcases hinv.kv_sound k v sl0 (by rw [kvBucket_eq]; exact hikv) with ⟨hsort0, hne0, hsub0⟩
        have hbound : ∀ x ∈ sl0, x.id < h.seq + 1 := fun x hx => hfresh x (hsub0 x hx).1
        have hadd : sublistAdd sl0 (⟨h.seq + 1, t, once, 0⟩ : Sub) = sl0 ++ [⟨h.seq + 1, t, once, 0⟩] :=
          sublistAdd_append sl0 _ hbound
        have hrem : sublistRemove (sl0 ++ [(⟨h.seq + 1, t, once, 0⟩ : Sub)]) (h.seq + 1) = sl0 :=
          sublistRemove_append sl0 _ hbound
        have hlen0 : sl0.length ≠ 0 := by
          intro hc
          exact hne0 (List.length_eq_zero.mp hc)
        simp only [hikv, Option.getD_some, hadd, hrem]
        simp [hlen0]
    · rw [if_neg hkv]
      show ikvAt (h.subscribeEvent t once).1.indexKeyValue k v = ikvAt h.indexKeyValue k v
      rw [hmidkv k v, if_neg hkv]
  refine ⟨?_, ?_, ?_, ?_, ?_⟩
  · show ((h.subscribeEvent t once).1.unsubscribe (h.seq + 1)).all = h.all
    rw [hcomp]
    show sublistRemove (h.subscribeEvent t once).1.all (h.seq + 1) = h.all
    rw [h1all]
    exact sublistRemove_append h.all ⟨h.seq + 1, t, once, 0⟩ hfresh
  · show ((h.subscribeEvent t once).1.unsubscribe (h.seq + 1)).indexKey = h.indexKey
    rw [hcomp]
    funext k
    show (t.mp.data.foldl (removeKVStep (h.seq + 1))
        ((h.subscribeEvent t once).1.indexKeyValue, (h.subscribeEvent t once).1.indexKey)).2 k
      = h.indexKey k
    rw [removeFold_ik (h.seq + 1) t.mp.data hnd _ k]
    by_cases hk : k ∈ t.mp.data.map KV.key
    · rw [if_pos hk]
      show (match (h.subscribeEvent t once).1.indexKey k with
            | none => none
            | some sl => if (sublistRemove sl (h.seq + 1)).length = 0 then none
                         else some (sublistRemove sl (h.seq + 1))) = h.indexKey k
      rw [hmid k, if_pos hk]
      cases hik : h.indexKey k with
      | none =>
        have hrem : sublistRemove ([] ++ [(⟨h.seq + 1, t, once, 0⟩ : Sub)]) (h.seq + 1) = [] :=
          sublistRemove_append [] _ (by intro x hx; simp at hx)
        simp only [List.nil_append] at hrem
        simp only [Option.getD_none, sublistAdd_nil]
        simp [hrem]
      | some sl0 =>
        rcases hinv.key_sound k sl0 hik with ⟨hsort0, hne0, hsub0⟩
        have hbound : ∀ x ∈ sl0, x.id < h.seq + 1 := fun x hx => hfresh x (hsub0 x hx).1
        have hadd : sublistAdd sl0 (⟨h.seq + 1, t, once, 0⟩ : Sub) = sl0 ++ [⟨h.seq + 1, t, once, 0⟩] :=
          sublistAdd_append sl0 _ hbound
        have hrem : sublistRemove (sl0 ++ [(⟨h.seq + 1, t, once, 0⟩ : Sub)]) (h.seq + 1) = sl0 :=
          sublistRemove_append sl0 _ hbound
        have hlen0 : sl0.length ≠ 0 := by
          intro hc
          exact hne0 (List.length_eq_zero.mp hc)
        simp only [Option.getD_some, hadd, hrem]
        simp [hlen0]
    · rw [if_neg hk]
      show (h.subscribeEvent t once).1.indexKey k = h.indexKey k
      rw [hmid k, if_neg hk]
  · show ((h.subscribeEvent t once).1.unsubscribe (h.seq + 1)).indexEmpty = h.indexEmpty
    rw [hcomp]
    show (if Topic.Len t = 0 then
        sublistRemove (h.subscribeEvent t once).1.indexEmpty (h.seq + 1)
      else (h.subscribeEvent t once).1.indexEmpty) = h.indexEmpty
    have hmide : (h.subscribeEvent t once).1.indexEmpty =
        if Topic.Len t = 0 then sublistAdd h.indexEmpty ⟨h.seq + 1, t, once, 0⟩
        else h.indexEmpty := rfl
    by_cases hlen : Topic.Len t = 0
    · rw [if_pos hlen, hmide, if_pos hlen]
      have hbound : ∀ x ∈ h.indexEmpty, x.id < h.seq + 1 :=
        fun x hx => hfresh x (hinv.empty_sound x hx).1
      rw [sublistAdd_append h.indexEmpty _ hbound]
      exact sublistRemove_append h.indexEmpty _ hbound
    · rw [if_neg hlen, hmide, if_neg hlen]
  · intro k v
    show kvBucket ((h.subscribeEvent t once).1.unsubscribe (h.seq + 1)) k v = kvBucket h k v
    rw [kvBucket_eq, kvBucket_eq, hcomp]
    exact hpost_ikvAt k v
  · intro k
    show ((h.subscribeEvent t once).1.unsubscribe (h.seq + 1)).indexKeyValue k = h.indexKeyValue k
      ∨ (h.indexKeyValue k = none
         ∧ ((h.subscribeEvent t once).1.unsubscribe (h.seq + 1)).indexKeyValue k
            = some (fun _ => none))
    rw [hcomp]
    show (t.mp.data.foldl (removeKVStep (h.seq + 1))
        ((h.subscribeEvent t once).1.indexKeyValue, (h.subscribeEvent t once).1.indexKey)).1 k
        = h.indexKeyValue k
      ∨ (h.indexKeyValue k = none
         ∧ (t.mp.data.foldl (removeKVStep (h.seq + 1))
            ((h.subscribeEvent t once).1.indexKeyValue, (h.subscribeEvent t once).1.indexKey)).1 k
            = some (fun _ => none))
    by_cases hk : k ∈ t.mp.data.map KV.key
    · rcases List.mem_map.mp hk with ⟨p, hp, hpk⟩
      have hmidsome : ((h.subscribeEvent t once).1.indexKeyValue k).isSome = true := by
        rw [← hpk]
        show ((t.mp.data.foldl (addKVStep ⟨h.seq + 1, t, once, 0⟩)
          (h.indexKeyValue, h.indexKey)).1 p.key).isSome = true
        rw [addFold_outer ⟨h.seq + 1, t, once, 0⟩ t.mp.data hnd (h.indexKeyValue, h.indexKey) p hp]
        rfl
      have hpostsome : ((t.mp.data.foldl (removeKVStep (h.seq + 1))
          ((h.subscribeEvent t once).1.indexKeyValue, (h.subscribeEvent t once).1.indexKey)).1 k).isSome
          = true := by
        rw [removeFold_outer_isSome]
        exact hmidsome
      rcases Option.isSome_iff_exists.mp hpostsome with ⟨innerPost, hinner⟩
      have hvals : ∀ q, innerPost q = ikvAt h.indexKeyValue k q := by
        intro q
        have := hpost_ikvAt k q
        rw [← this]
        unfold ikvAt
        rw [hinner]
      cases hpre : h.indexKeyValue k with
      | none =>
        refine Or.inr ⟨rfl, ?_⟩
        rw [hinner]
        congr 1
        funext q
        rw [hvals q]
        unfold ikvAt
        rw [hpre]
      | some innerPre =>
        refine Or.inl ?_
        rw [hinner]
        congr 1
        funext q
        rw [hvals q]
        unfold ikvAt
        rw [hpre]
    · have huntouchR := (removeFold_untouched (h.seq + 1) t.mp.data
        ((h.subscribeEvent t once).1.indexKeyValue, (h.subscribeEvent t once).1.indexKey) k hk).1
      have huntouchA := (addFold_untouched ⟨h.seq + 1, t, once, 0⟩ t.mp.data
        (h.indexKeyValue, h.indexKey) k hk).1
      refine Or.inl ?_
      rw [huntouchR]
      exact huntouchA

/-- Witness for the amended C2: on the fresh hub the all-registry, indexKey
and indexEmpty are restored after subscribe-then-unsubscribe. -/
theorem c2_amended_buckets_restored_witness :
    (subThenUnsub Hub.new (Topic.mk ⟨[⟨"a", "1"⟩]⟩) false).all = Hub.new.all :=
  (c2_amended_buckets_restored Hub.new (Topic.mk ⟨[⟨"a", "1"⟩]⟩) false inv_new (by decide)).1

/-! ## Claim C1: indexed dispatch equals the brute-force scan -/

theorem mergeAux_subset :
    ∀ (lists : List (List Sub)) (prev : Nat), ∀ x ∈ mergeAux lists prev, x ∈ lists.flatten := by
  intro lists prev
  induction lists, prev using mergeAux.induct with
  | case1 lists prev hfs =>
    rw [mergeAux_none _ _ hfs]
    intro x hx
    simp at hx
  | case2 lists prev i sm hfs hne ih =>
    rw [mergeAux_some _ _ _ _ hfs, if_pos hne]
    intro x hx
    rcases List.mem_cons.mp hx with hx2 | hx2
    · rw [hx2]
      exact findSmallest_mem lists i sm hfs
    · exact mem_join_dropHeadAt lists i x (ih x hx2)
  | case3 lists prev i sm hfs hne ih =>
    rw [mergeAux_some _ _ _ _ hfs, if_neg hne]
    intro x hx
    exact mem_join_dropHeadAt lists i x (ih x hx)

theorem foldl_append_eq {α β : Type} (g : β → List α) :
    ∀ (l : List β) (init : List α),
      l.foldl (fun acc p => acc ++ g p) init = init ++ (l.map g).flatten := by
  intro l
  induction l with
  | nil => intro init; simp
  | cons p rest ih =>
    intro init
    rw [List.foldl_cons, ih (init ++ g p)]
    simp

theorem candidates_eq (h : Hub) (t : Topic) :
    h.candidates t = (t.mp.data.map (pickLists h)).flatten
      ++ (if h.indexEmpty.length > 0 then [h.indexEmpty] else []) := by
  unfold Hub.candidates
  rw [foldl_append_eq (pickLists h) t.mp.data []]
  by_cases hie : h.indexEmpty.length > 0
  · rw [if_pos hie, if_pos hie]
    simp
  · rw [if_neg hie, if_neg hie]
    simp

theorem mem_candidates (h : Hub) (t : Topic) (sl : List Sub) :
    sl ∈ h.candidates t ↔
      (∃ p ∈ t.mp.data, sl ∈ pickLists h p) ∨ (sl = h.indexEmpty ∧ h.indexEmpty ≠ []) := by
  rw [candidates_eq]
  rw [List.mem_append, List.mem_flatten]
  constructor
  · rintro (⟨l, hl, hsl⟩ | hsl)
    · rcases List.mem_map.mp hl with ⟨p, hp, hpe⟩
      exact Or.inl ⟨p, hp, hpe ▸ hsl⟩
    · by_cases hie : h.indexEmpty.length > 0
      · rw [if_pos hie] at hsl
        rcases List.mem_singleton.mp hsl with rfl
        refine Or.inr ⟨rfl, ?_⟩
        intro hc
        rw [hc] at hie
        simp at hie
      · rw [if_neg hie] at hsl
        simp at hsl
  · rintro (⟨p, hp, hsl⟩ | ⟨rfl, hne⟩)
    · exact Or.inl ⟨pickLists h p, List.mem_map.mpr ⟨p, hp, rfl⟩, hsl⟩
    · refine Or.inr ?_
      have hpos : h.indexEmpty.length > 0 := by
        cases hc : h.indexEmpty with
        | nil => exact absurd hc hne
        | cons a l => simp [hc]
      rw [if_pos hpos]
      exact List.mem_singleton.mpr rfl

theorem pickLists_cases (h : Hub) (p : KV) (sl : List Sub) (hsl : sl ∈ pickLists h p) :
    (∃ k, h.indexKey k = some sl) ∨ (∃ k v, kvBucket h k v = some sl) := by
  unfold pickLists at hsl
  by_cases hany : p.value = Any
  · rw [if_pos hany] at hsl
    cases hik : h.indexKey p.key with
    | none => rw [hik] at hsl; simp at hsl
    | some sl0 =>
      rw [hik] at hsl
      rcases List.mem_singleton.mp hsl with rfl
      exact Or.inl ⟨p.key, hik⟩
  · rw [if_neg hany] at hsl
    cases hout : h.indexKeyValue p.key with
    | none => rw [hout] at hsl; simp at hsl
    | some inner =>
      rw [hout] at hsl
      rw [List.mem_append] at hsl
      rcases hsl with hsl | hsl
      · cases hin : inner p.value with
        | none => rw [hin] at hsl; simp at hsl
        | some sl0 =>
          rw [hin] at hsl
          rcases List.mem_singleton.mp hsl with rfl
          refine Or.inr ⟨p.key, p.value, ?_⟩
          unfold kvBucket
          rw [hout]
          exact hin
      · cases hin : inner Any with
        | none => rw [hin] at hsl; simp at hsl
        | some sl0 =>
          rw [hin] at hsl
          rcases List.mem_singleton.mp hsl with rfl
          refine Or.inr ⟨p.key, Any, ?_⟩
          unfold kvBucket
          rw [hout]
          exact hin

theorem candidates_sound (h : Hub) (t : Topic) (hinv : Inv h) :
    ∀ sl ∈ h.candidates t, SortedIds sl ∧ ∀ x ∈ sl, x ∈ h.all := by
  intro sl hsl
  rcases (mem_candidates h t sl).mp hsl with hc | ⟨hsl2, _⟩
  · rcases hc with ⟨p, hp, hpick⟩
    rcases pickLists_cases h p sl hpick with ⟨k, hk⟩ | ⟨k, v, hkv⟩
    · rcases hinv.key_sound k sl hk with ⟨h1, _, h3⟩
      exact ⟨h1, fun x hx => (h3 x hx).1⟩
    · rcases hinv.kv_sound k v sl hkv with ⟨h1, _, h3⟩
      exact ⟨h1, fun x hx => (h3 x hx).1⟩
  · rw [hsl2]
    exact ⟨hinv.empty_sorted, fun x hx => (hinv.empty_sound x hx).1⟩

theorem candidates_complete (h : Hub) (t : Topic) (hinv : Inv h) (ht : TopicWF t) :
    ∀ x ∈ h.all, x.topic.Match t = true → x ∈ (h.candidates t).flatten := by
  intro x hx hmatch
  cases hpat : x.topic.mp.data with
  | nil =>
    have hie : x ∈ h.indexEmpty := hinv.empty_complete x hx hpat
    have hne : h.indexEmpty ≠ [] := List.ne_nil_of_mem hie
    exact List.mem_flatten.mpr ⟨h.indexEmpty, (mem_candidates h t _).mpr (Or.inr ⟨rfl, hne⟩), hie⟩
  | cons p0 rest =>
    have hiff := (matchData_iff x.topic.mp.data t.mp.data (hinv.all_wf x hx) ht).mp hmatch
    have hp0 : p0 ∈ x.topic.mp.data := by rw [hpat]; exact List.mem_cons_self p0 rest
    rcases hiff p0 hp0 with ⟨v, hvmem, hcond⟩
    by_cases hany : v = Any
    · rcases hinv.key_complete x hx p0 hp0 with ⟨sl, hsl, hxsl⟩
      refine List.mem_flatten.mpr
        ⟨sl, (mem_candidates h t sl).mpr (Or.inl ⟨⟨p0.key, v⟩, hvmem, ?_⟩), hxsl⟩
      unfold pickLists
      rw [if_pos hany]
      show sl ∈ match h.indexKey p0.key with | some sl => [sl] | none => []
      rw [hsl]
      exact List.mem_singleton.mpr rfl
    · have hv2 : p0.value = Any ∨ p0.value = v := by
        rcases hcond with hc | hc | hc
        · exact Or.inl hc
        · exact absurd hc hany
        · exact Or.inr hc
      rcases hinv.kv_complete x hx p0 hp0 with ⟨sl, hsl, hxsl⟩
      have houter : ∃ inner, h.indexKeyValue p0.key = some inner ∧ inner p0.value = some sl := by
        unfold kvBucket at hsl
        cases hout : h.indexKeyValue p0.key with
        | none => rw [hout] at hsl; simp at hsl
        | some inner => rw [hout] at hsl; exact ⟨inner, rfl, hsl⟩
      rcases houter with ⟨inner, hout, hin⟩
      refine List.mem_flatten.mpr
        ⟨sl, (mem_candidates h t sl).mpr (Or.inl ⟨⟨p0.key, v⟩, hvmem, ?_⟩), hxsl⟩
      unfold pickLists
      rw [if_neg hany]
      show sl ∈ (match h.indexKeyValue p0.key with
        | none => []
        | some inner =>
          (match inner v with | some sl => [sl] | none => []) ++
          (match inner Any with | some sl => [sl] | none => []))
      rw [hout]
      rw [List.mem_append]
      rcases hv2 with hv2 | hv2
      · refine Or.inr ?_
        rw [hv2] at hin
        rw [hin]
        exact List.mem_singleton.mpr rfl
      · refine Or.inl ?_
        rw [hv2] at hin
        rw [hin]
        exact List.mem_singleton.mpr rfl

theorem sorted_unique_ext :
    ∀ (l₁ l₂ : List Sub), SortedIds l₁ → SortedIds l₂ → (∀ x, x ∈ l₁ ↔ x ∈ l₂) → l₁ = l₂ := by
  intro l₁
  induction l₁ with
  | nil =>
    intro l₂ _ _ hmem
    cases l₂ with
    | nil => rfl
    | cons b bs => exact absurd ((hmem b).mpr (List.mem_cons_self b bs)) (List.not_mem_nil b)
  | cons a as ih =>
    intro l₂ h₁ h₂ hmem
    cases l₂ with
    | nil => exact absurd ((hmem a).mp (List.mem_cons_self a as)) (List.not_mem_nil a)
    | cons b bs =>
      rcases List.pairwise_cons.mp h₁ with ⟨ha1, ha2⟩
      rcases List.pairwise_cons.mp h₂ with ⟨hb1, hb2⟩
      have hab : a = b := by
        have hal2 : a ∈ b :: bs := (hmem a).mp (List.mem_cons_self a as)
        have hbl1 : b ∈ a :: as := (hmem b).mpr (List.mem_cons_self b bs)
        rcases List.mem_cons.mp hal2 with he | ha3
        · exact he
        · rcases List.mem_cons.mp hbl1 with he | hb3
          · exact he.symm
          · have h1 := hb1 a ha3
            have h2 := ha1 b hb3
            omega
      subst hab
      have hmem2 : ∀ x, x ∈ as ↔ x ∈ bs := by
        intro x
        constructor
        · intro hxa
          have hx2 : x ∈ a :: bs := (hmem x).mp (List.mem_cons_of_mem a hxa)
          rcases List.mem_cons.mp hx2 with he | hxb
          · exact absurd (ha1 x hxa) (by rw [he]; omega)
          · exact hxb
        · intro hxb
          have hx2 : x ∈ a :: as := (hmem x).mpr (List.mem_cons_of_mem a hxb)
          rcases List.mem_cons.mp hx2 with he | hxa
          · exact absurd (hb1 x hxb) (by rw [he]; omega)
          · exact hxa
      rw [ih bs ha2 hb2 hmem2]

/-- Claim C1: under the hub consistency invariant and for a well-formed
event topic, the index-based dispatch (candidate gathering over the three
index structures, k-way merge, final Match filter) delivers exactly — same
set and same ascending-id order — what a brute-force scan of all
subscriptions filtered by Match delivers. -/
theorem c1_indexed_dispatch_equals_brute_force (h : Hub) (t : Topic)
    (hinv : Inv h) (ht : TopicWF t) :
    h.matchSubs t = h.all.filter (fun s => s.topic.Match t) := by
  have hsound := candidates_sound h t hinv
  have hlists : ∀ l ∈ h.candidates t, SortedIds l := fun l hl => (hsound l hl).1
  have hjoinall : ∀ x ∈ (h.candidates t).flatten, x ∈ h.all := by
    intro x hx
    rcases List.mem_flatten.mp hx with ⟨l, hl, hxl⟩
    exact (hsound l hl).2 x hxl
  rcases mergeAux_spec (h.candidates t) 0 hlists (fun x hx => Nat.zero_le _) with
    ⟨hmsort, hmgt, hmiff⟩
  have hmergemem : ∀ x, x ∈ mergeSubLists (h.candidates t) ↔ x ∈ (h.candidates t).flatten := by
    intro x
    constructor
    · intro hx
      exact mergeAux_subset (h.candidates t) 0 x hx
    · intro hx
      have hxpos : 0 < x.id := hinv.all_pos x (hjoinall x hx)
      rcases (hmiff x.id).mpr ⟨x, hx, rfl, hxpos⟩ with ⟨y, hy, hyid⟩
      have hymem : y ∈ (h.candidates t).flatten := mergeAux_subset (h.candidates t) 0 y hy
      have hyx : y = x :=
        sortedIds_id_inj h.all hinv.all_sorted y (hjoinall y hymem) x (hjoinall x hx) hyid
      rw [← hyx]
      exact hy
  apply sorted_unique_ext
  · exact hmsort.filter _
  · exact hinv.all_sorted.filter _
  · intro x
    unfold Hub.matchSubs
    rw [List.mem_filter, List.mem_filter]
    constructor
    · rintro ⟨hxm, hxp⟩
      exact ⟨hjoinall x ((hmergemem x).mp hxm), hxp⟩
    · rintro ⟨hxa, hxp⟩
      refine ⟨(hmergemem x).mpr (candidates_complete h t hinv ht x hxa ?_), hxp⟩
      simpa using hxp

/-- Witness for C1: on the fresh hub (which satisfies the invariant) the
indexed dispatch for an event topic equals the brute-force scan. -/
theorem c1_indexed_dispatch_equals_brute_force_witness :
    Hub.new.matchSubs (Topic.mk ⟨[⟨"type", "alert"⟩]⟩)
      = Hub.new.all.filter (fun s => s.topic.Match (Topic.mk ⟨[⟨"type", "alert"⟩]⟩)) :=
  c1_indexed_dispatch_equals_brute_force Hub.new (Topic.mk ⟨[⟨"type", "alert"⟩]⟩)
    inv_new (by decide)

/-! ## The invariant holds for all reachable hub states -/

theorem sortedIds_append_singleton (l : List Sub) (s : Sub)
    (hs : SortedIds l) (hb : ∀ x ∈ l, x.id < s.id) : SortedIds (l ++ [s]) := by
  refine List.pairwise_append.mpr ⟨hs, List.pairwise_singleton _ _, ?_⟩
  intro a ha b hb2
  rcases List.mem_singleton.mp hb2 with rfl
  exact hb a ha

theorem topicLen_zero_iff (t : Topic) : Topic.Len t = 0 ↔ t.mp.data = [] := by
  unfold Topic.Len Map.Len
  exact List.length_eq_zero

/-- SubscribeEvent preserves the hub consistency invariant (for a topic
satisfying the data-model invariant). -/
theorem inv_subscribeEvent (h : Hub) (t : Topic) (once : Bool)
    (hinv : Inv h) (ht : TopicWF t) : Inv (h.subscribeEvent t once).1 := by
  have hnd : t.mp.data.Pairwise (fun a b => a.key ≠ b.key) :=
    ht.imp (fun hlt => ne_of_lt hlt)
  have hfresh : ∀ x ∈ h.all, x.id < (h.seq + 1) := by
    intro x hx
    have := hinv.all_seq x hx
    omega
  have h1all : (h.subscribeEvent t once).1.all = h.all ++ [⟨h.seq + 1, t, once, 0⟩] :=
    sublistAdd_append h.all ⟨h.seq + 1, t, once, 0⟩ hfresh
  have hmid : ∀ k, (h.subscribeEvent t once).1.indexKey k =
      if k ∈ t.mp.data.map KV.key
      then some (sublistAdd ((h.indexKey k).getD []) ⟨h.seq + 1, t, once, 0⟩)
      else h.indexKey k := by
    intro k
    exact addFold_ik ⟨h.seq + 1, t, once, 0⟩ t.mp.data hnd (h.indexKeyValue, h.indexKey) k
  have hmidkv : ∀ k v, ikvAt (h.subscribeEvent t once).1.indexKeyValue k v =
      if KV.mk k v ∈ t.mp.data
      then some (sublistAdd ((ikvAt h.indexKeyValue k v).getD []) ⟨h.seq + 1, t, once, 0⟩)
      else ikvAt h.indexKeyValue k v := by
    intro k v
    exact addFold_ikvAt ⟨h.seq + 1, t, once, 0⟩ t.mp.data hnd (h.indexKeyValue, h.indexKey) k v
  have hmide : (h.subscribeEvent t once).1.indexEmpty =
      if Topic.Len t = 0 then sublistAdd h.indexEmpty ⟨h.seq + 1, t, once, 0⟩
      else h.indexEmpty := rfl
  have hseq : (h.subscribeEvent t once).1.seq = h.seq + 1 := rfl
  have hmemall : ∀ x, x ∈ (h.subscribeEvent t once).1.all ↔
      x ∈ h.all ∨ x = ⟨h.seq + 1, t, once, 0⟩ := by
    intro x
    rw [h1all, List.mem_append, List.mem_singleton]
  -- helper for the add on an optional bucket
  have haddbucket : ∀ (ob : Option (List Sub)),
      (∀ sl0 ∈ ob, SortedIds sl0 ∧ sl0 ≠ [] ∧ ∀ y ∈ sl0, y ∈ h.all) →
      SortedIds (sublistAdd (ob.getD []) ⟨h.seq + 1, t, once, 0⟩)
      ∧ sublistAdd (ob.getD []) ⟨h.seq + 1, t, once, 0⟩
          = ob.getD [] ++ [⟨h.seq + 1, t, once, 0⟩] := by
    intro ob hob
    have hbound : ∀ x ∈ ob.getD [], x.id < h.seq + 1 := by
      intro x hx
      cases ob with
      | none => simp at hx
      | some sl0 => exact hfresh x ((hob sl0 rfl).2.2 x (by simpa using hx))
    have hsort : SortedIds (ob.getD []) := by
      cases ob with
      | none => exact List.Pairwise.nil
      | some sl0 => exact (hob sl0 rfl).1
    exact ⟨by
      rw [sublistAdd_append _ _ hbound]
      exact sortedIds_append_singleton _ _ hsort hbound,
      sublistAdd_append _ _ hbound⟩
  refine ⟨?_, ?_, ?_, ?_, ?_, ?_, ?_, ?_, ?_, ?_, ?_⟩
  · rw [h1all]
    exact sortedIds_append_singleton h.all _ hinv.all_sorted hfresh
  · intro x hx
    rcases (hmemall x).mp hx with hx2 | hx2
    · exact hinv.all_pos x hx2
    · rw [hx2]; show 1 ≤ h.seq + 1; omega
  · intro x hx
    rw [hseq]
    rcases (hmemall x).mp hx with hx2 | hx2
    · have := hinv.all_seq x hx2; omega
    · rw [hx2]
  · intro x hx
    rcases (hmemall x).mp hx with hx2 | hx2
    · exact hinv.all_wf x hx2
    · rw [hx2]; exact ht
  · -- kv_sound
    intro k v sl hsl
    rw [kvBucket_eq, hmidkv k v] at hsl
    by_cases hkv : KV.mk k v ∈ t.mp.data
    · rw [if_pos hkv] at hsl
      have hob : ∀ sl0 ∈ ikvAt h.indexKeyValue k v, SortedIds sl0 ∧ sl0 ≠ [] ∧ ∀ y ∈ sl0, y ∈ h.all := by
        intro sl0 hsl0
        rcases hinv.kv_sound k v sl0 (by rw [kvBucket_eq]; exact hsl0) with ⟨a, b, c⟩
        exact ⟨a, b, fun y hy => (c y hy).1⟩
      rcases haddbucket (ikvAt h.indexKeyValue k v) hob with ⟨hs1, hs2⟩
      rcases Option.some.injEq _ _ ▸ hsl with hsl2
      have hsleq : sl = sublistAdd ((ikvAt h.indexKeyValue k v).getD []) ⟨h.seq + 1, t, once, 0⟩ := by
        injection hsl with hh
        exact hh.symm
      refine ⟨by rw [hsleq]; exact hs1, ?_, ?_⟩
      · rw [hsleq, hs2]
        simp
      · intro y hy
        rw [hsleq, hs2, List.mem_append, List.mem_singleton] at hy
        rcases hy with hy | hy
        · have hy2 : y ∈ (ikvAt h.indexKeyValue k v).getD [] := hy
          cases hog : ikvAt h.indexKeyValue k v with
          | none => rw [hog] at hy2; simp at hy2
          | some sl0 =>
            rw [hog] at hy2
            simp at hy2
            rcases hinv.kv_sound k v sl0 (by rw [kvBucket_eq]; exact hog) with ⟨_, _, c⟩
            exact ⟨(hmemall y).mpr (Or.inl (c y hy2).1), (c y hy2).2⟩
        · refine ⟨(hmemall y).mpr (Or.inr hy), ?_⟩
          rw [hy]
          show KV.mk k v ∈ t.mp.data
          exact hkv
    · rw [if_neg hkv] at hsl
      rcases hinv.kv_sound k v sl (by rw [kvBucket_eq]; exact hsl) with ⟨a, b, c⟩
      exact ⟨a, b, fun y hy => ⟨(hmemall y).mpr (Or.inl (c y hy).1), (c y hy).2⟩⟩
  · -- kv_complete
    intro x hx p hp
    rw [kvBucket_eq, hmidkv p.key p.value]
    rcases (hmemall x).mp hx with hx2 | hx2
    · rcases hinv.kv_complete x hx2 p hp with ⟨sl, hsl, hxsl⟩
      rw [kvBucket_eq] at hsl
      by_cases hkv : KV.mk p.key p.value ∈ t.mp.data
      · rw [if_pos hkv]
        refine ⟨_, rfl, ?_⟩
        have hob : ∀ sl0 ∈ ikvAt h.indexKeyValue p.key p.value,
            SortedIds sl0 ∧ sl0 ≠ [] ∧ ∀ y ∈ sl0, y ∈ h.all := by
          intro sl0 hsl0
          rcases hinv.kv_sound p.key p.value sl0 (by rw [kvBucket_eq]; exact hsl0) with ⟨a, b, c⟩
          exact ⟨a, b, fun y hy => (c y hy).1⟩
        rcases haddbucket (ikvAt h.indexKeyValue p.key p.value) hob with ⟨_, hs2⟩
        rw [hs2, List.mem_append]
        refine Or.inl ?_
        rw [hsl]
        simpa using hxsl
      · rw [if_neg hkv]
        exact ⟨sl, hsl, hxsl⟩
    · have hpt : p ∈ t.mp.data := by
        rw [hx2] at hp
        exact hp
      have hkv : KV.mk p.key p.value ∈ t.mp.data := by
        have : KV.mk p.key p.value = p := by cases p; rfl
        rw [this]
        exact hpt
      rw [if_pos hkv]
      refine ⟨_, rfl, ?_⟩
      have hob : ∀ sl0 ∈ ikvAt h.indexKeyValue p.key p.value,
          SortedIds sl0 ∧ sl0 ≠ [] ∧ ∀ y ∈ sl0, y ∈ h.all := by
        intro sl0 hsl0
        rcases hinv.kv_sound p.key p.value sl0 (by rw [kvBucket_eq]; exact hsl0) with ⟨a, b, c⟩
        exact ⟨a, b, fun y hy => (c y hy).1⟩
      rcases haddbucket (ikvAt h.indexKeyValue p.key p.value) hob with ⟨_, hs2⟩
      rw [hs2, List.mem_append, List.mem_singleton]
      exact Or.inr hx2
  · -- key_sound
    intro k sl hsl
    rw [hmid k] at hsl
    by_cases hk : k ∈ t.mp.data.map KV.key
    · rw [if_pos hk] at hsl
      have hob : ∀ sl0 ∈ h.indexKey k, SortedIds sl0 ∧ sl0 ≠ [] ∧ ∀ y ∈ sl0, y ∈ h.all := by
        intro sl0 hsl0
        rcases hinv.key_sound k sl0 hsl0 with ⟨a, b, c⟩
        exact ⟨a, b, fun y hy => (c y hy).1⟩
      rcases haddbucket (h.indexKey k) hob with ⟨hs1, hs2⟩
      have hsleq : sl = sublistAdd ((h.indexKey k).getD []) ⟨h.seq + 1, t, once, 0⟩ := by
        injection hsl with hh
        exact hh.symm
      refine ⟨by rw [hsleq]; exact hs1, ?_, ?_⟩
      · rw [hsleq, hs2]
        simp
      · intro y hy
        rw [hsleq, hs2, List.mem_append, List.mem_singleton] at hy
        rcases hy with hy | hy
        · have hy2 : y ∈ (h.indexKey k).getD [] := hy
          cases hog : h.indexKey k with
          | none => rw [hog] at hy2; simp at hy2
          | some sl0 =>
            rw [hog] at hy2
            simp at hy2
            rcases hinv.key_sound k sl0 hog with ⟨_, _, c⟩
            exact ⟨(hmemall y).mpr (Or.inl (c y hy2).1), (c y hy2).2⟩
        · refine ⟨(hmemall y).mpr (Or.inr hy), ?_⟩
          rw [hy]
          show k ∈ t.mp.data.map KV.key
          exact hk
    · rw [if_neg hk] at hsl
      rcases hinv.key_sound k sl hsl with ⟨a, b, c⟩
      exact ⟨a, b, fun y hy => ⟨(hmemall y).mpr (Or.inl (c y hy).1), (c y hy).2⟩⟩
  · -- key_complete
    intro x hx p hp
    rw [hmid p.key]
    rcases (hmemall x).mp hx with hx2 | hx2
    · rcases hinv.key_complete x hx2 p hp with ⟨sl, hsl, hxsl⟩
      by_cases hk : p.key ∈ t.mp.data.map KV.key
      · rw [if_pos hk]
        refine ⟨_, rfl, ?_⟩
        have hob : ∀ sl0 ∈ h.indexKey p.key, SortedIds sl0 ∧ sl0 ≠ [] ∧ ∀ y ∈ sl0, y ∈ h.all := by
          intro sl0 hsl0
          rcases hinv.key_sound p.key sl0 hsl0 with ⟨a, b, c⟩
          exact ⟨a, b, fun y hy => (c y hy).1⟩
        rcases haddbucket (h.indexKey p.key) hob with ⟨_, hs2⟩
        rw [hs2, List.mem_append]
        refine Or.inl ?_
        rw [hsl]
        simpa using hxsl
      · rw [if_neg hk]
        exact ⟨sl, hsl, hxsl⟩
    · have hpt : p ∈ t.mp.data := by
        rw [hx2] at hp
        exact hp
      have hk : p.key ∈ t.mp.data.map KV.key := List.mem_map.mpr ⟨p, hpt, rfl⟩
      rw [if_pos hk]
      refine ⟨_, rfl, ?_⟩
      have hob : ∀ sl0 ∈ h.indexKey p.key, SortedIds sl0 ∧ sl0 ≠ [] ∧ ∀ y ∈ sl0, y ∈ h.all := by
        intro sl0 hsl0
        rcases hinv.key_sound p.key sl0 hsl0 with ⟨a, b, c⟩
        exact ⟨a, b, fun y hy => (c y hy).1⟩
      rcases haddbucket (h.indexKey p.key) hob with ⟨_, hs2⟩
      rw [hs2, List.mem_append, List.mem_singleton]
      exact Or.inr hx2
  · -- empty_sorted
    rw [hmide]
    by_cases hlen : Topic.Len t = 0
    · rw [if_pos hlen]
      have hbound : ∀ x ∈ h.indexEmpty, x.id < h.seq + 1 :=
        fun x hx => hfresh x (hinv.empty_sound x hx).1
      rw [sublistAdd_append _ _ hbound]
      exact sortedIds_append_singleton _ _ hinv.empty_sorted hbound
    · rw [if_neg hlen]
      exact hinv.empty_sorted
  · -- empty_sound
    intro x hx
    rw [hmide] at hx
    by_cases hlen : Topic.Len t = 0
    · rw [if_pos hlen] at hx
      have hbound : ∀ y ∈ h.indexEmpty, y.id < h.seq + 1 :=
        fun y hy => hfresh y (hinv.empty_sound y hy).1
      rw [sublistAdd_append _ _ hbound, List.mem_append, List.mem_singleton] at hx
      rcases hx with hx | hx
      · exact ⟨(hmemall x).mpr (Or.inl (hinv.empty_sound x hx).1), (hinv.empty_sound x hx).2⟩
      · refine ⟨(hmemall x).mpr (Or.inr hx), ?_⟩
        rw [hx]
        show t.mp.data = []
        exact (topicLen_zero_iff t).mp hlen
    · rw [if_neg hlen] at hx
      exact ⟨(hmemall x).mpr (Or.inl (hinv.empty_sound x hx).1), (hinv.empty_sound x hx).2⟩
  · -- empty_complete
    intro x hx hxe
    rw [hmide]
    rcases (hmemall x).mp hx with hx2 | hx2
    · by_cases hlen : Topic.Len t = 0
      · rw [if_pos hlen]
        have hbound : ∀ y ∈ h.indexEmpty, y.id < h.seq + 1 :=
          fun y hy => hfresh y (hinv.empty_sound y hy).1
        rw [sublistAdd_append _ _ hbound, List.mem_append]
        exact Or.inl (hinv.empty_complete x hx2 hxe)
      · rw [if_neg hlen]
        exact hinv.empty_complete x hx2 hxe
    · have hlen : Topic.Len t = 0 := by
        rw [topicLen_zero_iff]
        rw [hx2] at hxe
        exact hxe
      rw [if_pos hlen]
      have hbound : ∀ y ∈ h.indexEmpty, y.id < h.seq + 1 :=
        fun y hy => hfresh y (hinv.empty_sound y hy).1
      rw [sublistAdd_append _ _ hbound, List.mem_append, List.mem_singleton]
      exact Or.inr hx2

theorem sublistFind_found_spec (l : List Sub) (id : Nat) (hsorted : SortedIds l)
    (hfound : ¬ sublistFind l id < 0) :
    (sublistFind l id).toNat < l.length ∧ (subAt l (sublistFind l id).toNat).id = id := by
  unfold sublistFind at hfound ⊢
  rw [sortSearch_lowerBound l id hsorted] at hfound ⊢
  by_cases hc : lowerBound l id < l.length ∧ (subAt l (lowerBound l id)).id = id
  · rw [if_pos hc] at hfound ⊢
    exact ⟨by simpa using hc.1, by simpa using hc.2⟩
  · rw [if_neg hc] at hfound
    omega

theorem removeFold_ikvAt_cases (id : Nat) (ps : List KV)
    (hnd : ps.Pairwise (fun a b => a.key ≠ b.key))
    (ikv : String → Option (String → Option (List Sub))) (ik : String → Option (List Sub))
    (k v : String) :
    (KV.mk k v ∉ ps ∧ ikvAt (ps.foldl (removeKVStep id) (ikv, ik)).1 k v = ikvAt ikv k v)
    ∨ (KV.mk k v ∈ ps ∧ ikvAt ikv k v = none
        ∧ ikvAt (ps.foldl (removeKVStep id) (ikv, ik)).1 k v = none)
    ∨ (∃ sl0, KV.mk k v ∈ ps ∧ ikvAt ikv k v = some sl0
        ∧ ikvAt (ps.foldl (removeKVStep id) (ikv, ik)).1 k v =
            (if (sublistRemove sl0 id).length = 0 then none
             else some (sublistRemove sl0 id))) := by
  have hmain := removeFold_ikvAt id ps hnd (ikv, ik) k v
  by_cases hmem : KV.mk k v ∈ ps
  · rw [if_pos hmem] at hmain
    cases hb : ikvAt ikv k v with
    | none =>
      refine Or.inr (Or.inl ⟨hmem, rfl, ?_⟩)
      rw [hmain]
      have hb2 : ikvAt (ikv, ik).1 k v = none := hb
      rw [hb2]
    | some sl0 =>
      refine Or.inr (Or.inr ⟨sl0, hmem, rfl, ?_⟩)
      rw [hmain]
      have hb2 : ikvAt (ikv, ik).1 k v = some sl0 := hb
      rw [hb2]
  · rw [if_neg hmem] at hmain
    exact Or.inl ⟨hmem, hmain⟩

theorem removeFold_ik_cases (id : Nat) (ps : List KV)
    (hnd : ps.Pairwise (fun a b => a.key ≠ b.key))
    (ikv : String → Option (String → Option (List Sub))) (ik : String → Option (List Sub))
    (k : String) :
    (k ∉ ps.map KV.key ∧ (ps.foldl (removeKVStep id) (ikv, ik)).2 k = ik k)
    ∨ (k ∈ ps.map KV.key ∧ ik k = none
        ∧ (ps.foldl (removeKVStep id) (ikv, ik)).2 k = none)
    ∨ (∃ sl0, k ∈ ps.map KV.key ∧ ik k = some sl0
        ∧ (ps.foldl (removeKVStep id) (ikv, ik)).2 k =
            (if (sublistRemove sl0 id).length = 0 then none
             else some (sublistRemove sl0 id))) := by
  have hmain := removeFold_ik id ps hnd (ikv, ik) k
  by_cases hmem : k ∈ ps.map KV.key
  · rw [if_pos hmem] at hmain
    cases hb : ik k with
    | none =>
      refine Or.inr (Or.inl ⟨hmem, rfl, ?_⟩)
      rw [hmain]
      have hb2 : (ikv, ik).2 k = none := hb
      rw [hb2]
    | some sl0 =>
      refine Or.inr (Or.inr ⟨sl0, hmem, rfl, ?_⟩)
      rw [hmain]
      have hb2 : (ikv, ik).2 k = some sl0 := hb
      rw [hb2]
  · rw [if_neg hmem] at hmain
    exact Or.inl ⟨hmem, hmain⟩

/-- Unsubscribe preserves the hub consistency invariant. -/
theorem inv_unsubscribe (h : Hub) (id : Nat) (hinv : Inv h) : Inv (h.unsubscribe id) := by
  by_cases hfound : sublistFind h.all id < 0
  · have hsame : h.unsubscribe id = h := by
      unfold Hub.unsubscribe
      rw [if_pos hfound]
    rw [hsame]
    exact hinv
  · rcases sublistFind_found_spec h.all id hinv.all_sorted hfound with ⟨hlt, hid⟩
    rw [unsubscribe_found h id hfound]
    set x0 := subAt h.all (sublistFind h.all id).toNat with hx0def
    have hx0mem : x0 ∈ h.all := subAt_mem h.all _ hlt
    have hwf0 : TopicWF x0.topic := hinv.all_wf x0 hx0mem
    have hnd : x0.topic.mp.data.Pairwise (fun a b => a.key ≠ b.key) :=
      hwf0.imp (fun hlt2 => ne_of_lt hlt2)
    have huniq : ∀ y ∈ h.all, y.id = id → y = x0 := by
      intro y hy hyid
      exact sortedIds_id_inj h.all hinv.all_sorted y hy x0 hx0mem (by rw [hyid, hid])
    have hallr : sublistRemove h.all id = h.all.filter (fun s => decide (s.id ≠ id)) :=
      sublistRemove_sorted h.all id hinv.all_sorted
    have hmemall : ∀ y : Sub, y ∈ sublistRemove h.all id ↔ y ∈ h.all ∧ y.id ≠ id := by
      intro y
      rw [hallr, List.mem_filter]
      simp
    have hmemie : ∀ y : Sub, y ∈ sublistRemove h.indexEmpty id ↔ y ∈ h.indexEmpty ∧ y.id ≠ id := by
      intro y
      rw [sublistRemove_sorted h.indexEmpty id hinv.empty_sorted, List.mem_filter]
      simp
    refine ⟨?_, ?_, ?_, ?_, ?_, ?_, ?_, ?_, ?_, ?_, ?_⟩
    · show SortedIds (sublistRemove h.all id)
      rw [hallr]
      exact List.Pairwise.filter _ hinv.all_sorted
    · intro s hs
      exact hinv.all_pos s ((hmemall s).mp hs).1
    · intro s hs
      exact hinv.all_seq s ((hmemall s).mp hs).1
    · intro s hs
      exact hinv.all_wf s ((hmemall s).mp hs).1
    · -- kv_sound
      intro k v sl hsl
      rw [kvBucket_eq] at hsl
      have hsl2 : ikvAt (x0.topic.mp.data.foldl (removeKVStep id)
          (h.indexKeyValue, h.indexKey)).1 k v = some sl := hsl
      rcases removeFold_ikvAt_cases id x0.topic.mp.data hnd h.indexKeyValue h.indexKey k v with
        ⟨hnm, heq⟩ | ⟨hm, hbn, heq⟩ | ⟨sl0, hm, hb, heq⟩
      · have hold : ikvAt h.indexKeyValue k v = some sl := by
          rw [← heq]
          exact hsl2
        rcases hinv.kv_sound k v sl (by rw [kvBucket_eq]; exact hold) with ⟨hs0, hne0, hm0⟩
        refine ⟨hs0, hne0, ?_⟩
        intro y hy
        rcases hm0 y hy with ⟨hyall, hykv⟩
        refine ⟨(hmemall y).mpr ⟨hyall, ?_⟩, hykv⟩
        intro hyid
        have hyx : y = x0 := huniq y hyall hyid
        exact hnm (hyx ▸ hykv)
      · rw [heq] at hsl2
        exact absurd hsl2 (by simp)
      · rw [heq] at hsl2
        by_cases hlen : (sublistRemove sl0 id).length = 0
        · rw [if_pos hlen] at hsl2
          exact absurd hsl2 (by simp)
        · rw [if_neg hlen] at hsl2
          injection hsl2 with hh
          rcases hinv.kv_sound k v sl0 (by rw [kvBucket_eq]; exact hb) with ⟨hs0, hne0, hm0⟩
          have hrem : sublistRemove sl0 id = sl0.filter (fun s => decide (s.id ≠ id)) :=
            sublistRemove_sorted sl0 id hs0
          refine ⟨?_, ?_, ?_⟩
          · rw [← hh, hrem]
            exact List.Pairwise.filter _ hs0
          · intro hc
            exact hlen (by rw [hh, hc]; rfl)
          · intro y hy
            rw [← hh, hrem, List.mem_filter] at hy
            rcases hy with ⟨hy0, hyid⟩
            rcases hm0 y hy0 with ⟨hyall, hykv⟩
            exact ⟨(hmemall y).mpr ⟨hyall, by simpa using hyid⟩, hykv⟩
    · -- kv_complete
      intro s hs p hp
      rcases (hmemall s).mp hs with ⟨hsall, hsid⟩
      rcases hinv.kv_complete s hsall p hp with ⟨sl, hsl, hssl⟩
      rw [kvBucket_eq] at hsl
      rcases removeFold_ikvAt_cases id x0.topic.mp.data hnd h.indexKeyValue h.indexKey
          p.key p.value with
        ⟨hnm, heq⟩ | ⟨hm, hbn, heq⟩ | ⟨sl0, hm, hb, heq⟩
      · refine ⟨sl, ?_, hssl⟩
        rw [kvBucket_eq]
        show ikvAt (x0.topic.mp.data.foldl (removeKVStep id)
            (h.indexKeyValue, h.indexKey)).1 p.key p.value = some sl
        rw [heq]
        exact hsl
      · rw [hbn] at hsl
        exact absurd hsl (by simp)
      · rw [hb] at hsl
        injection hsl with hsl0eq
        subst hsl0eq
        rcases hinv.kv_sound p.key p.value sl0 (by rw [kvBucket_eq]; exact hb) with ⟨hs0, _, _⟩
        have hrem : sublistRemove sl0 id = sl0.filter (fun s => decide (s.id ≠ id)) :=
          sublistRemove_sorted sl0 id hs0
        have hsmem : s ∈ sublistRemove sl0 id := by
          rw [hrem, List.mem_filter]
          exact ⟨hssl, by simpa using hsid⟩
        have hlen : ¬ (sublistRemove sl0 id).length = 0 := by
          intro hc
          rw [List.length_eq_zero] at hc
          rw [hc] at hsmem
          simp at hsmem
        refine ⟨sublistRemove sl0 id, ?_, hsmem⟩
        rw [kvBucket_eq]
        show ikvAt (x0.topic.mp.data.foldl (removeKVStep id)
            (h.indexKeyValue, h.indexKey)).1 p.key p.value = some (sublistRemove sl0 id)
        rw [heq, if_neg hlen]
    · -- key_sound
      intro k sl hsl
      have hsl2 : (x0.topic.mp.data.foldl (removeKVStep id)
          (h.indexKeyValue, h.indexKey)).2 k = some sl := hsl
      rcases removeFold_ik_cases id x0.topic.mp.data hnd h.indexKeyValue h.indexKey k with
        ⟨hnm, heq⟩ | ⟨hm, hbn, heq⟩ | ⟨sl0, hm, hb, heq⟩
      · have hold : h.indexKey k = some sl := by
          rw [← heq]
          exact hsl2
        rcases hinv.key_sound k sl hold with ⟨hs0, hne0, hm0⟩
        refine ⟨hs0, hne0, ?_⟩
        intro y hy
        rcases hm0 y hy with ⟨hyall, hyk⟩
        refine ⟨(hmemall y).mpr ⟨hyall, ?_⟩, hyk⟩
        intro hyid
        have hyx : y = x0 := huniq y hyall hyid
        exact hnm (hyx ▸ hyk)
      · rw [heq] at hsl2
        exact absurd hsl2 (by simp)
      · rw [heq] at hsl2
        by_cases hlen : (sublistRemove sl0 id).length = 0
        · rw [if_pos hlen] at hsl2
          exact absurd hsl2 (by simp)
        · rw [if_neg hlen] at hsl2
          injection hsl2 with hh
          rcases hinv.key_sound k sl0 hb with ⟨hs0, hne0, hm0⟩
          have hrem : sublistRemove sl0 id = sl0.filter (fun s => decide (s.id ≠ id)) :=
            sublistRemove_sorted sl0 id hs0
          refine ⟨?_, ?_, ?_⟩
          · rw [← hh, hrem]
            exact List.Pairwise.filter _ hs0
          · intro hc
            exact hlen (by rw [hh, hc]; rfl)
          · intro y hy
            rw [← hh, hrem, List.mem_filter] at hy
            rcases hy with ⟨hy0, hyid⟩
            rcases hm0 y hy0 with ⟨hyall, hyk⟩
            exact ⟨(hmemall y).mpr ⟨hyall, by simpa using hyid⟩, hyk⟩
    · -- key_complete
      intro s hs p hp
      rcases (hmemall s).mp hs with ⟨hsall, hsid⟩
      rcases hinv.key_complete s hsall p hp with ⟨sl, hsl, hssl⟩
      rcases removeFold_ik_cases id x0.topic.mp.data hnd h.indexKeyValue h.indexKey p.key with
        ⟨hnm, heq⟩ | ⟨hm, hbn, heq⟩ | ⟨sl0, hm, hb, heq⟩
      · refine ⟨sl, ?_, hssl⟩
        show (x0.topic.mp.data.foldl (removeKVStep id)
            (h.indexKeyValue, h.indexKey)).2 p.key = some sl
        rw [heq]
        exact hsl
      · rw [hbn] at hsl
        exact absurd hsl (by simp)
      · rw [hb] at hsl
        injection hsl with hsl0eq
        subst hsl0eq
        rcases hinv.key_sound p.key sl0 hb with ⟨hs0, _, _⟩
        have hrem : sublistRemove sl0 id = sl0.filter (fun s => decide (s.id ≠ id)) :=
          sublistRemove_sorted sl0 id hs0
        have hsmem : s ∈ sublistRemove sl0 id := by
          rw [hrem, List.mem_filter]
          exact ⟨hssl, by simpa using hsid⟩
        have hlen : ¬ (sublistRemove sl0 id).length = 0 := by
          intro hc
          rw [List.length_eq_zero] at hc
          rw [hc] at hsmem
          simp at hsmem
        refine ⟨sublistRemove sl0 id, ?_, hsmem⟩
        show (x0.topic.mp.data.foldl (removeKVStep id)
            (h.indexKeyValue, h.indexKey)).2 p.key = some (sublistRemove sl0 id)
        rw [heq, if_neg hlen]
    · -- empty_sorted
      show SortedIds (if x0.topic.Len = 0 then sublistRemove h.indexEmpty id else h.indexEmpty)
      by_cases hlen : x0.topic.Len = 0
      · rw [if_pos hlen, sublistRemove_sorted h.indexEmpty id hinv.empty_sorted]
        exact List.Pairwise.filter _ hinv.empty_sorted
      · rw [if_neg hlen]
        exact hinv.empty_sorted
    · -- empty_sound
      intro y hy
      have hy2 : y ∈ (if x0.topic.Len = 0 then sublistRemove h.indexEmpty id
          else h.indexEmpty) := hy
      by_cases hlen : x0.topic.Len = 0
      · rw [if_pos hlen, hmemie y] at hy2
        rcases hy2 with ⟨hyie, hyid⟩
        rcases hinv.empty_sound y hyie with ⟨hyall, hydata⟩
        exact ⟨(hmemall y).mpr ⟨hyall, hyid⟩, hydata⟩
      · rw [if_neg hlen] at hy2
        rcases hinv.empty_sound y hy2 with ⟨hyall, hydata⟩
        refine ⟨(hmemall y).mpr ⟨hyall, ?_⟩, hydata⟩
        intro hyid
        have hyx : y = x0 := huniq y hyall hyid
        apply hlen
        rw [topicLen_zero_iff, ← hyx]
        exact hydata
    · -- empty_complete
      intro s hs hdata
      rcases (hmemall s).mp hs with ⟨hsall, hsid⟩
      have hsie : s ∈ h.indexEmpty := hinv.empty_complete s hsall hdata
      show s ∈ (if x0.topic.Len = 0 then sublistRemove h.indexEmpty id else h.indexEmpty)
      by_cases hlen : x0.topic.Len = 0
      · rw [if_pos hlen, hmemie s]
        exact ⟨hsie, hsid⟩
      · rw [if_neg hlen]
        exact hsie

/-! ## The reserved id 0 in the k-way merge -/

/-- Claim C10: the merge's duplicate filter is seeded with previous id 0, so
a subscription with id 0 in any (id-sorted) input registry is silently
dropped and the merge never yields id 0; every other id present is yielded.
The engine's convention keeps this sound: SubscribeEvent always hands out
ids of at least 1. -/
theorem c10_merge_reserves_id_zero (lists : List (List Sub))
    (hs : ∀ l ∈ lists, SortedIds l) :
    (∀ y ∈ mergeSubLists lists, y.id ≠ 0)
    ∧ (∀ n, (∃ y ∈ mergeSubLists lists, y.id = n) ↔
        (∃ x ∈ lists.flatten, x.id = n) ∧ n ≠ 0)
    ∧ (mergeSubLists [[⟨0, ⟨⟨[]⟩⟩, false, 0⟩, ⟨2, ⟨⟨[]⟩⟩, false, 0⟩]]).map Sub.id = [2]
    ∧ (∀ (h : Hub) (t : Topic) (once : Bool), 1 ≤ (h.subscribeEvent t once).2) := by
  rcases mergeAux_spec lists 0 hs (fun x hx => Nat.zero_le _) with ⟨h1, h2, h3⟩
  refine ⟨?_, ?_, ?_, ?_⟩
  · intro y hy
    have := h2 y hy
    omega
  · intro n
    constructor
    · intro hex
      rcases (h3 n).mp hex with ⟨x, hx, hxid, h0⟩
      exact ⟨⟨x, hx, hxid⟩, by omega⟩
    · rintro ⟨⟨x, hx, rfl⟩, hn0⟩
      exact (h3 x.id).mpr ⟨x, hx, rfl, by omega⟩
  · simp +decide [mergeSubLists, mergeAux, findSmallest, dropHeadAt]
  · intro h t once
    show 1 ≤ h.seq + 1
    omega

/-- Witness for C10: a sorted registry holding ids 0 and 2 merges to just
[2] - the id-0 entry is dropped. -/
theorem c10_merge_reserves_id_zero_witness :
    (∀ l, l ∈ ([[⟨0, ⟨⟨[]⟩⟩, false, 0⟩, ⟨2, ⟨⟨[]⟩⟩, false, 0⟩]] : List (List Sub)) →
      SortedIds l)
    ∧ (mergeSubLists [[⟨0, ⟨⟨[]⟩⟩, false, 0⟩, ⟨2, ⟨⟨[]⟩⟩, false, 0⟩]]).map Sub.id = [2] :=
  ⟨by decide,
    (c10_merge_reserves_id_zero [[⟨0, ⟨⟨[]⟩⟩, false, 0⟩, ⟨2, ⟨⟨[]⟩⟩, false, 0⟩]]
      (by decide)).2.2.1⟩

/-! ## The WaitGroup discipline of the async publish path with finish callbacks -/

/-- A sync.WaitGroup operation: Add(k) or Done(). Wait does not change the
counter and is omitted. -/
inductive WgOp where
  | add : Nat → WgOp
  | done : WgOp
deriving DecidableEq, Repr

/-- Run a WaitGroup operation sequence from a counter value. Done on a zero
counter is the Go runtime panic "sync: negative WaitGroup counter",
modelled as none. -/
def wgRun : Nat → List WgOp → Option Nat
  | c, [] => some c
  | c, WgOp.add k :: rest => wgRun (c + k) rest
  | 0, WgOp.done :: _ => none
  | c + 1, WgOp.done :: rest => wgRun c rest

/-- The WaitGroup operations publishEventAsyncNoWaitFinish (hub.go) performs
when n subscriptions match: the match callback performs no Add, and each of
the n launched handler goroutines calls Done once. -/
def asyncNoWaitFinishWgTrace (n : Nat) : List WgOp := List.replicate n WgOp.done

/-- The same path in the earlier revision of hub.go: the match callback
calls Add(1) before spawning each handler goroutine, so all n Adds happen
on the publisher goroutine before any Done can run. -/
def asyncNoWaitFinishWgTraceOld (n : Nat) : List WgOp :=
  List.replicate n (WgOp.add 1) ++ List.replicate n WgOp.done

theorem wgRun_replicate_add (n : Nat) (rest : List WgOp) :
    ∀ c, wgRun c (List.replicate n (WgOp.add 1) ++ rest) = wgRun (c + n) rest := by
  induction n with
  | zero => intro c; simp
  | succ m ih =>
    intro c
    rw [List.replicate_succ, List.cons_append]
    have hstep : wgRun c (WgOp.add 1 :: (List.replicate m (WgOp.add 1) ++ rest)) =
        wgRun (c + 1) (List.replicate m (WgOp.add 1) ++ rest) := by
      simp [wgRun]
    rw [hstep, ih (c + 1)]
    have : c + 1 + m = c + (m + 1) := by omega
    rw [this]

theorem wgRun_replicate_done (n : Nat) :
    wgRun n (List.replicate n WgOp.done) = some 0 := by
  induction n with
  | zero => rfl
  | succ m ih =>
    rw [List.replicate_succ]
    show wgRun m (List.replicate m WgOp.done) = some 0
    exact ih

/-- Claim C3: with sync=false, wait=false and finish callbacks registered,
the current publishEventAsyncNoWaitFinish performs no wg.Add, so as soon as
one subscription matches the first completing handler goroutine calls
wg.Done on a zero counter - the Go runtime panic - and the finish callbacks
cannot be claimed to fire exactly once after the last task. The earlier
revision's trace, with Add(1) in the match callback, runs to completion with
a zero final counter so wg.Wait releases and the finish path runs; the
zero-match trace performs no WaitGroup operation and also completes. -/
theorem c3_async_finish_missing_wg_add (n : Nat) (hn : 1 ≤ n) :
    wgRun 0 (asyncNoWaitFinishWgTrace n) = none
    ∧ wgRun 0 (asyncNoWaitFinishWgTraceOld n) = some 0
    ∧ wgRun 0 (asyncNoWaitFinishWgTrace 0) = some 0 := by
  refine ⟨?_, ?_, rfl⟩
  · cases n with
    | zero => omega
    | succ m =>
      rw [asyncNoWaitFinishWgTrace, List.replicate_succ]
      rfl
  · rw [asyncNoWaitFinishWgTraceOld, wgRun_replicate_add n (List.replicate n WgOp.done) 0]
    have h0 : 0 + n = n := by omega
    rw [h0]
    exact wgRun_replicate_done n

/-- Witness for C3: with a single matching subscription the current trace
panics while the earlier revision's trace completes. -/
theorem c3_async_finish_missing_wg_add_witness :
    1 ≤ 1
    ∧ (wgRun 0 (asyncNoWaitFinishWgTrace 1) = none
      ∧ wgRun 0 (asyncNoWaitFinishWgTraceOld 1) = some 0
      ∧ wgRun 0 (asyncNoWaitFinishWgTrace 0) = some 0) :=
  ⟨by decide, c3_async_finish_missing_wg_add 1 (by decide)⟩

end HubSpec
